import Mathlib

/-!
Verification of the `ki` synchronization engine (`src/ki/__init__.py`,
`src/ki/types.py`) against its natural-language specification.

The development is a shallow embedding: each Python function relevant to a
claim is transcribed as a Lean definition operating on explicit models of its
inputs (file contents as `String`, filesystem facts as finite lists or boolean
fields, `result.Ok`/`result.Err` values as an explicit sum).  External
collaborators (git, Anki, `apy`'s HTML conversion, `unicodedata`) are
parameters of the embedding; where a concrete instance is required for a
witness we use instances that agree with the real external functions on the
concrete strings involved, as documented at each instance.

Runtime enforcement of type annotations by the `beartype` decorator is not
modelled: a Python expression is modelled by its value, and declared
annotations are ignored, matching the visible data flow of the source.
-/

namespace Ki

/-- Error values of the Python layer.  Each constructor corresponds to an
exception class from `src/ki/types.py` / `src/ki/__init__.py`, plus built-in
Python exceptions raised by the modelled code paths. -/
inductive PyErr where
  | fileNotFound
  | expectedFileButGotDirectory
  | expectedDirectoryButGotFile
  | expectedEmptyDirectoryButGotNonEmptyDirectory
  | strangeExtantPath
  | targetExists
  | updatesRejected
  | indexError
  | attributeError
  | valueError
  deriving DecidableEq, Repr

/-- A `result.Result` value: `Ok` or `Err` from the `result` library used by
the source (`from result import Result, Err, Ok, OkErr`). -/
inductive Res (α : Type) where
  | ok (a : α)
  | err (e : PyErr)
  deriving DecidableEq, Repr

/-- Return values of the `M_*` path constructors.  Besides `Ok`/`Err`, the
source can return a *bare* exception object that is not wrapped in `Err`
(see `M_emptydir`, line 351 of `src/ki/__init__.py`); `bare` records that. -/
inductive MRet (α : Type) where
  | ok (a : α)
  | err (e : PyErr)
  | bare (e : PyErr)
  deriving DecidableEq, Repr

/-- Classification of a resolved filesystem path, as observed by the source's
`Path.exists`/`Path.is_dir`/`Path.is_file` calls and the `is_empty` helper. -/
inductive PathKind where
  | file
  | emptyDir
  | nonemptyDir
  | strange
  | absent
  deriving DecidableEq, Repr

/-- `is_empty(directory)` (line 660): a directory is empty when `os.scandir`
yields nothing. -/
def isEmptyDir : PathKind → Bool
  | .emptyDir => true
  | _ => false

/-- `M_xdir` (lines 315-331): classify a resolved path, succeeding exactly on
extant directories and failing with the matching typed error otherwise. -/
def M_xdir : PathKind → MRet PathKind
  | .absent => .err .fileNotFound
  | .emptyDir => .ok .emptyDir
  | .nonemptyDir => .ok .nonemptyDir
  | .file => .err .expectedDirectoryButGotFile
  | .strange => .err .strangeExtantPath

/-- `M_emptydir` (lines 334-351): first `M_xdir`, then the `is_empty` check.
The non-empty branch of the source reads
`return ExpectedEmptyDirectoryButGotNonEmptyDirectoryError(str(directory))`,
returning the exception object itself rather than `Err(...)`; this is the
`bare` constructor. -/
def M_emptydir (p : PathKind) : MRet PathKind :=
  match M_xdir p with
  | .err e => .err e
  | .bare e => .bare e
  | .ok d =>
      if isEmptyDir d then .ok .emptyDir
      else .bare .expectedEmptyDirectoryButGotNonEmptyDirectory

/-- Effects of `cleanup_after_clone` (lines 1614-1674): whether
`shutil.rmtree(targetdir)` ran, whether `.ki/last_push` was written, and the
value the call ends with. -/
structure CloneCleanupFx where
  removedTarget : Bool
  wroteLastPush : Bool
  ret : Res Bool
  deriving DecidableEq, Repr

/-- `cleanup_after_clone(targetdir, kirepo, head, processed)` (lines
1614-1674).  The four arguments are the `Result` values produced by the
preceding steps of `clone()`; the payload of `targetdir` is the runtime
`targetdir.is_dir()` test of line 1659.  Control flow transcribed:

* line 1647: if `targetdir` is an `Err`, return it (nothing removed);
* lines 1658-1660: otherwise unwrap and, if the directory exists, remove it
  with `shutil.rmtree` - this runs before any of the remaining error checks;
* lines 1664-1669: return the first `Err` among `kirepo`, `head`,
  `processed`;
* line 1672: `kirepo.last_push_file.write_text(head.unwrap().sha)` - here
  `kirepo` is still the `Ok`-wrapped value (it is never unwrapped), and
  `result.Ok` objects have no `last_push_file` attribute, so this raises
  `AttributeError` before writing. -/
def cleanupAfterClone (targetdir : Res Bool) (kirepo : Res Unit)
    (head : Res String) (processed : Res Unit) : CloneCleanupFx :=
  match targetdir with
  | .err e => ⟨false, false, .err e⟩
  | .ok isDir =>
      let removed := isDir
      match kirepo with
      | .err e => ⟨removed, false, .err e⟩
      | .ok _ =>
          match head with
          | .err e => ⟨removed, false, .err e⟩
          | .ok _ =>
              match processed with
              | .err e => ⟨removed, false, .err e⟩
              | .ok _ => ⟨removed, false, .err .attributeError⟩

/-- Python `str.split("\n")` restricted to the fixed separator the source
uses (lines 1785, 1910): split on newline, keeping empty pieces, so that
`""` yields `[""]`. -/
def splitNlCore (acc : List Char) : List Char → List String
  | [] => [String.mk acc.reverse]
  | c :: rest =>
      if c = '\n' then String.mk acc.reverse :: splitNlCore [] rest
      else splitNlCore (c :: acc) rest

/-- `text.split("\n")`. -/
def pySplitNl (s : String) : List String :=
  splitNlCore [] s.data

/-- Python `list.startswith`-style check on character lists. -/
def startsWithL : List Char → List Char → Bool
  | [], _ => true
  | _ :: _, [] => false
  | c :: cs, h :: hs => c = h && startsWithL cs hs

/-- Membership of `needle` in `haystack` as a contiguous segment: Python's
`needle in haystack` for strings. -/
def containsSeg (n : List Char) : List Char → Bool
  | [] => n.isEmpty
  | h :: hs => startsWithL n (h :: hs) || containsSeg n hs

/-- Python `needle in haystack` on strings. -/
def pyInStr (needle haystack : String) : Bool :=
  containsSeg needle.data haystack.data

/-- Lines 1785-1786 / 1910-1911: split the hashes file on newlines and drop
empty lines. -/
def hashesLines (text : String) : List String :=
  (pySplitNl text).filter (fun l => l ≠ "")

/-- Outcome of the hash precondition at the top of `_push` (lines
1909-1914). -/
inductive PushGateOut where
  | rejectedErr
  | proceed
  | crashIndexError
  deriving DecidableEq, Repr

/-- The `_push` precondition (lines 1909-1914): `hashes[-1]` raises
`IndexError` on an empty list; otherwise push is rejected exactly when
`md5sum not in hashes[-1]`. -/
def pushGate (hashesText md5sum : String) : PushGateOut :=
  match (hashesLines hashesText).getLast? with
  | none => .crashIndexError
  | some last => if pyInStr md5sum last then .proceed else .rejectedErr

/-- Effects of the `_pull` up-to-date gate (lines 1784-1790). -/
structure PullGateFx where
  upToDate : Bool
  calledUnlock : Bool
  retOk : Bool
  deriving DecidableEq, Repr

/-- The `_pull` gate (lines 1784-1790): `hashes[-1]` raises `IndexError` on an
empty list (`none` here); if `md5sum in hashes[-1]` the source echoes
"ki pull: up to date." and returns `Ok(unlock(con))`; otherwise the pull body
runs (no unlock yet at this point). -/
def pullGate (hashesText md5sum : String) : Option PullGateFx :=
  match (hashesLines hashesText).getLast? with
  | none => none
  | some last =>
      if pyInStr md5sum last then some ⟨true, true, true⟩
      else some ⟨false, false, false⟩

/-- A git change type (`GitChangeType`, lines 200-207), in the source's
declaration order. -/
inductive GitChangeType where
  | added
  | deleted
  | renamed
  | modified
  | typechanged
  deriving DecidableEq, Repr

/-- The two working trees a `Delta` path can live under: `a_dir` is the
ephemeral copy of the baseline commit, `b_dir` the staging repository. -/
inductive Side where
  | a
  | b
  deriving DecidableEq, Repr

/-- A `Delta` (lines 213-221): change type, absolute path (modelled as the
containing tree plus the path relative to it), and the relative path. -/
structure Delta where
  status : GitChangeType
  side : Side
  relpath : String
  deriving DecidableEq, Repr

/-- Effects of `process_deltas` (lines 1956-2112) that the claims refer to:
the returned value, whether "ki push: up to date." was echoed, whether
`unlock(con)` ran, and whether the collection file was overwritten. -/
structure PushFx where
  ret : Res Bool
  reportedUpToDate : Bool
  calledUnlock : Bool
  overwroteCollection : Bool
  deriving DecidableEq, Repr

/-- `process_deltas` (lines 1956-2112).  Lines 1967-1970: when
`len(set(deltas)) == 0` the source echoes "ki push: up to date." and returns
`Ok()` immediately - before the collection copy, before any Anki call, and
without ever calling `unlock` (the connection `con` is not among the
function's parameters).  The long non-empty branch drives the external Anki
collection; its effects are abstracted as the argument `rest`. -/
def processDeltas (deltas : List Delta) (rest : PushFx) : PushFx :=
  if (deltas.eraseDups).length = 0 then
    ⟨.ok true, true, false, false⟩
  else rest

/-- `_push` (lines 1905-1953) as far as the claims need it: first the hash
gate; on rejection the function returns `Err(UpdatesRejectedError(...))`
before any collection access; on `proceed` the staging work runs (it touches
only temporary copies, not the collection file) and control reaches
`process_deltas`. -/
def pushRun (hashesText md5sum : String) (deltas : List Delta)
    (rest : PushFx) : PushFx :=
  match pushGate hashesText md5sum with
  | .rejectedErr => ⟨.err .updatesRejected, false, false, false⟩
  | .crashIndexError => ⟨.err .indexError, false, false, false⟩
  | .proceed => processDeltas deltas rest

/-- Spec-side predicate, from the specification's words: "The final non-empty
line of the hashes log equals [contains] the MD5 of the collection file". -/
def specLastLineHasMd5 (hashesText md5sum : String) : Bool :=
  match (hashesLines hashesText).getLast? with
  | none => false
  | some last => pyInStr md5sum last

/-- One entry of the git `DiffIndex` (a `git.Diff` object): the path of the
file on the baseline (`a`) side and on the HEAD (`b`) side, both relative to
the working tree. -/
structure DiffEntry where
  aPath : String
  bPath : String
  deriving DecidableEq, Repr

/-- The facts about the two working trees that `diff_repos` (lines 919-966)
consults for each entry: the ignore predicate (`ignore_fn`, applied to
`a_dir / rel` for both sides at line 937 - note the source uses `a_dir` for
`diff.b_path` as well), the `fftest`-is-an-extant-file checks in each tree,
and the `nid` obtained by `parse_markdown_note` on each side.  `nid` is
modelled as a total function: when parsing raises, `diff_repos` itself
propagates the exception and no delta list is produced at all, so total
parses are the only runs that hand a list to push. -/
structure DiffEnv where
  ignoreA : String → Bool
  aIsFile : String → Bool
  bIsFile : String → Bool
  nidA : String → Nat
  nidB : String → Nat

/-- The body of the inner loop of `diff_repos` (lines 935-964) for one diff
entry of change type `ct`:

* line 937: skip unless `ignore_fn` keeps both `a_dir/diff.a_path` and
  `a_dir/diff.b_path`;
* lines 947-952: for `DELETED`, require the a-side file to exist and emit
  `Delta(DELETED, a_path, a_relpath)`;
* lines 955-957: otherwise require the b-side file to exist;
* lines 959-964: for `RENAMED`, parse both sides; when the nids differ emit
  `Delta(DELETED, a_path, a_relpath)` then `Delta(ADDED, b_path, b_relpath)`.
  No other statement appends to `deltas`: an equal-nid rename, and every
  `ADDED`/`MODIFIED`/`TYPECHANGED` entry, emits nothing. -/
def processEntry (env : DiffEnv) (ct : GitChangeType) (e : DiffEntry) :
    List Delta :=
  if ¬(env.ignoreA e.aPath && env.ignoreA e.bPath) then []
  else if ct = .deleted then
    if env.aIsFile e.aPath then [⟨.deleted, .a, e.aPath⟩] else []
  else if ¬env.bIsFile e.bPath then []
  else if ct = .renamed then
    if env.nidA e.aPath ≠ env.nidB e.bPath then
      [⟨.deleted, .a, e.aPath⟩, ⟨.added, .b, e.bPath⟩]
    else []
  else []

/-- Iteration order of `for change_type in GitChangeType` (line 934): the
enum declaration order. -/
def changeTypeOrder : List GitChangeType :=
  [.added, .deleted, .renamed, .modified, .typechanged]

/-- `diff_repos` (lines 919-966): for each change type in order, for each
diff entry of that type, run the loop body and collect the emitted deltas. -/
def diffRepos (env : DiffEnv) (idx : GitChangeType → List DiffEntry) :
    List Delta :=
  changeTypeOrder.flatMap fun ct => (idx ct).flatMap (processEntry env ct)

/-- The deduplication key named by the specification: change kind and target
path. -/
def deltaKey (d : Delta) : GitChangeType × String :=
  (d.status, d.relpath)

/-- Environment for evaluating `diff_repos` on a rename whose two sides carry
the same nid: everything is kept by the ignore predicate, both sides exist,
and both parse to nid 5. -/
def envEqNid : DiffEnv :=
  ⟨fun _ => true, fun _ => true, fun _ => true, fun _ => 5, fun _ => 5⟩

/-- Same environment but the b-side parses to a different nid (6). -/
def envNeNid : DiffEnv :=
  ⟨fun _ => true, fun _ => true, fun _ => true, fun _ => 5, fun _ => 6⟩

/-- A diff index holding exactly one `RENAMED` entry, `a.md -> b.md`. -/
def idxOneRename : GitChangeType → List DiffEntry :=
  fun ct => if ct = .renamed then [⟨"a.md", "b.md"⟩] else []

/-- Python `readlines()` on a file content: split after each newline, keeping
the terminator; a final piece without a newline is kept; the empty content
yields no lines. -/
def readLinesCore (acc : List Char) : List Char → List String
  | [] => if acc.isEmpty then [] else [String.mk acc.reverse]
  | c :: rest =>
      if c = '\n' then String.mk (c :: acc).reverse :: readLinesCore [] rest
      else readLinesCore (c :: acc) rest

/-- `md_f.readlines()` (line 818). -/
def pyReadLines (s : String) : List String :=
  readLinesCore [] s.data

/-- Tail of the regex `^nid: [0-9]+$` after the first digit: further digits,
then either the end of the line or a single final newline (Python's `$`
matches just before a trailing newline). -/
def digitsTail : List Char → Bool
  | [] => true
  | c :: rest => if c = '\n' then rest.isEmpty else c.isDigit && digitsTail rest

/-- `[0-9]+$`: at least one digit, then `digitsTail`. -/
def digitsThenEnd : List Char → Bool
  | [] => false
  | c :: rest => c.isDigit && digitsTail rest

/-- `re.match(r"^nid: [0-9]+$", line)` (line 823) as a boolean: the anchored
literal prefix "nid: ", then at least one digit, then end of string (with
`$` also matching just before a trailing newline). -/
def matchNidLine (l : String) : Bool :=
  startsWithL "nid: ".data l.data && digitsThenEnd (l.data.drop 5)

/-- Python `path[-3:]` on a string, as used at line 815. -/
def pyLastThree (s : String) : String :=
  String.mk (s.data.drop (s.data.length - 3))

/-- `is_anki_note` (lines 809-825) on a path string and the content of the
file at that path: `.md` extension (via `path[-3:]`), at least two lines,
first line exactly "## Note" plus newline, second line matching
`^nid: [0-9]+$`. -/
def isAnkiNote (pathStr content : String) : Bool :=
  if pyLastThree pathStr ≠ ".md" then false
  else
    let lines := pyReadLines content
    if lines.length < 2 then false
    else if (lines.getD 0 "") ≠ "## Note\n" then false
    else matchNidLine (lines.getD 1 "")

/-- A path as `path_ignore_fn` (lines 828-851) observes it: its resolved
components (absolute), whether it is an extant regular file, and - when it is
a file - its content. -/
structure MPath where
  parts : List String
  isFile : Bool
  content : String

/-- `path.name`. -/
def nameOf (p : MPath) : String :=
  (p.parts.getLast?).getD ""

/-- The string form of an absolute posix path. -/
def pathStrOf (p : MPath) : String :=
  p.parts.foldl (fun acc part => acc ++ "/" ++ part) ""

/-- `anc` is `target` itself or an ancestor directory of it: resolved
component lists compare by prefix. -/
def isUnder (anc target : List String) : Bool :=
  anc = target.take anc.length

/-- `path_ignore_fn(path, patterns, root)` (lines 828-851):

* lines 831-834: reject when a pattern equals `path.name`;
* lines 837-841: reject when `root / p` resolves to the path itself or one of
  its ancestors;
* lines 845-849: reject when the path is an extant regular file that is not
  an Anki note;
* line 851: otherwise keep. -/
def pathIgnoreFn (p : MPath) (patterns : List String) (root : List String) :
    Bool :=
  if patterns.any (fun pat => pat = nameOf p) then false
  else if patterns.any (fun pat => isUnder (root ++ [pat]) p.parts) then false
  else if p.isFile && ¬isAnkiNote (pathStrOf p) p.content then false
  else true

/-- Spec-side predicate for the nid line, from the claim's words: the line is
"nid: " followed by a nonempty run of digits, optionally closed by the line's
newline. -/
def specNidLine (l : String) : Prop :=
  ∃ ds : List Char, ds ≠ [] ∧ (∀ c ∈ ds, c.isDigit) ∧
    (l.data = "nid: ".data ++ ds ∨ l.data = "nid: ".data ++ ds ++ ['\n'])

/-- Spec-side predicate for "is treated as a note file", from the claim's
words: path ends in `.md`, at least two lines, first line exactly
"## Note" plus newline, second line matching `nid: <digits>`. -/
def specNoteFile (pathStr content : String) : Prop :=
  (∃ t : List Char, pathStr.data = t ++ ".md".data) ∧
  2 ≤ (pyReadLines content).length ∧
  (pyReadLines content).getD 0 "" = "## Note\n" ∧
  specNidLine ((pyReadLines content).getD 1 "")

/-- The external Python string environment used by `slugify` and
`get_note_path`: `unicodedata.normalize("NFKC", .)` and
`unicodedata.normalize("NFKD", .)`, `str.lower()`, the character classes of
the regex escapes `\w` and `\s`, and `apy.convert.plain_to_html`.  These are
external collaborators of the source, so they are parameters of the
embedding. -/
structure PyExt where
  nfkc : String → String
  nfkd : String → String
  lower : String → String
  wordChar : Char → Bool
  spaceChar : Char → Bool
  plainToHtml : String → String

/-- `\w` on ASCII characters: letters, digits, underscore (Python `re`,
`str` patterns). -/
def asciiWordChar (c : Char) : Bool :=
  decide ((48 ≤ c.toNat ∧ c.toNat ≤ 57) ∨ (65 ≤ c.toNat ∧ c.toNat ≤ 90) ∨
    (97 ≤ c.toNat ∧ c.toNat ≤ 122) ∨ c.toNat = 95)

/-- `\s` on ASCII characters: space, tab, newline, vertical tab, form feed,
carriage return, and the file/group/record/unit separators 0x1c-0x1f (all of
which Python's `re` treats as whitespace for `str` patterns). -/
def asciiSpaceChar (c : Char) : Bool :=
  decide (c.toNat = 32 ∨ (9 ≤ c.toNat ∧ c.toNat ≤ 13) ∨
    (28 ≤ c.toNat ∧ c.toNat ≤ 31))

/-- ASCII lowercasing of one character, the action of `str.lower()` on
characters below 0x80. -/
def pyLowerChar (c : Char) : Char :=
  if 65 ≤ c.toNat ∧ c.toNat ≤ 90 then Char.ofNat (c.toNat + 32) else c

/-- `str.lower()` restricted to its ASCII action (used as the `lower` field
of concrete `PyExt` instances whose strings stay ASCII). -/
def asciiLower (s : String) : String :=
  String.mk (s.data.map pyLowerChar)

/-- `value.encode("ascii", "ignore").decode("ascii")` (line 1458): characters
with code point >= 128 are dropped. -/
def asciiIgnore (s : String) : String :=
  String.mk (s.data.filter (fun c => c.toNat < 128))

/-- Every character of the string is ASCII. -/
def asciiOnly (s : String) : Bool :=
  s.data.all (fun c => c.toNat < 128)

/-- Character class of `re.sub(r"[-\s]+", "-", ...)` at line 1462: dash or
whitespace, with the whitespace class supplied by the environment. -/
def dashSpace (U : PyExt) (c : Char) : Bool :=
  U.spaceChar c || c = '-'

/-- Character class kept by `re.sub(r"[^\w\s-]", "", ...)` at line 1461. -/
def keepClass (U : PyExt) (c : Char) : Bool :=
  U.wordChar c || U.spaceChar c || c = '-'

mutual

/-- `re.sub(r"[-\s]+", "-", value)` on a character list, for a given
dash-or-space class `ds`: each maximal run of `ds`-characters becomes a
single dash.  `collapseCore` is the scanning state outside a run. -/
def collapseCore (ds : Char → Bool) : List Char → List Char
  | [] => []
  | c :: rest =>
      if ds c then '-' :: collapseSkip ds rest else c :: collapseCore ds rest

/-- State inside a `ds`-run whose dash has already been emitted: drop further
run characters. -/
def collapseSkip (ds : Char → Bool) : List Char → List Char
  | [] => []
  | c :: rest =>
      if ds c then collapseSkip ds rest else c :: collapseCore ds rest

end

/-- Characters stripped by `.strip("-_")` at line 1462. -/
def dashUnderscore (c : Char) : Bool :=
  c = '-' || c = '_'

/-- Leading strip: drop characters satisfying `p` from the front. -/
def dropLead (p : Char → Bool) : List Char → List Char
  | [] => []
  | c :: rest => if p c then dropLead p rest else c :: rest

/-- Trailing strip: drop characters satisfying `p` from the back. -/
def dropTrail (p : Char → Bool) : List Char → List Char
  | [] => []
  | c :: rest =>
      let r := dropTrail p rest
      if r.isEmpty && p c then [] else c :: r

/-- Python `value.strip(chars)`: strip from both ends. -/
def pyStrip (p : Char → Bool) (l : List Char) : List Char :=
  dropTrail p (dropLead p l)

/-- `slugify(value, allow_unicode)` (lines 1444-1462):

* lines 1453-1460: NFKC-normalize when `allow_unicode`, otherwise
  NFKD-normalize and drop non-ASCII;
* line 1461: lowercase, then delete every character outside `[\w\s-]`;
* line 1462: collapse each run of `[-\s]` to a single dash and strip leading
  and trailing dashes and underscores. -/
def slugify (U : PyExt) (value : String) (allowUnicode : Bool) : String :=
  let v := if allowUnicode then U.nfkc value else asciiIgnore (U.nfkd value)
  let v := (U.lower v).data.filter (keepClass U)
  String.mk (pyStrip dashUnderscore (collapseCore (dashSpace U) v))

/-- One step of the 7scanner for `re.sub("<[^<]+?>", "", field_text)` (line
1190).  `pending = some buf` means a candidate tag was opened by `<` and
`buf` holds the characters seen since (reversed), none of which is `<`.
The lazy pattern closes at the first `>` that follows at least one non-`<`
character; a `<` aborts the candidate (its characters are emitted literally,
and only the new `<` can start a match); an unclosed candidate at the end of
input is emitted literally. -/
def stripTagsCore (pending : Option (List Char)) : List Char → List Char
  | [] =>
      match pending with
      | none => []
      | some buf => '<' :: buf.reverse
  | c :: rest =>
      match pending with
      | none =>
          if c = '<' then stripTagsCore (some []) rest
          else c :: stripTagsCore none rest
      | some buf =>
          if c = '>' && ¬buf.isEmpty then stripTagsCore none rest
          else if c = '<' then
            ('<' :: buf.reverse) ++ stripTagsCore (some []) rest
          else stripTagsCore (some (c :: buf)) rest

/-- `re.sub("<[^<]+?>", "", s)`. -/
def stripHtmlTags (s : String) : String :=
  String.mk (stripTagsCore none s.data)

/-- Python `s[:30]` (`MAX_FIELNAME_LEN = 30`, line 94). -/
def pyTake30 (s : String) : String :=
  String.mk (s.data.take 30)

/-- A decimal digit character. -/
def digitChar (d : Nat) : Char :=
  match d with
  | 0 => '0' | 1 => '1' | 2 => '2' | 3 => '3' | 4 => '4'
  | 5 => '5' | 6 => '6' | 7 => '7' | 8 => '8' | _ => '9'

/-- Big-endian decimal digits with explicit fuel (structural recursion so
that witnesses evaluate in the kernel); `natDigits` supplies enough fuel. -/
def natDigitsAux : Nat → Nat → List Char
  | 0, _ => []
  | fuel + 1, n =>
      if n < 10 then [digitChar n]
      else natDigitsAux fuel (n / 10) ++ [digitChar (n % 10)]

/-- Big-endian decimal digits of a natural number: Python `str(i)` for the
collision counter of `get_note_path`. -/
def natDigits (n : Nat) : List Char :=
  natDigitsAux (n + 1) n

/-- Python `str(i)` on a natural number. -/
def natStr (n : Nat) : String :=
  String.mk (natDigits n)

/-- The candidate filenames tried by `get_note_path` (lines 1194-1200):
`name.md`, then `name_1.md`, `name_2.md`, ... -/
def candName (name : String) : Nat → String
  | 0 => name ++ ".md"
  | Nat.succ k => name ++ "_" ++ natStr (k + 1) ++ ".md"

/-- The `while not isinstance(note_path, NoPath)` loop of `get_note_path`
(lines 1196-1200), with explicit fuel: try candidates `k`, `k+1`, ... and
return the first one absent from the deck directory listing `fs`.  The
source's loop is unbounded; `findFree_total` below shows fuel
`fs.length + 1` always suffices, so the `none` case is unreachable. -/
def findFree (fs : List String) (name : String) : Nat → Nat → Option String
  | 0, _ => none
  | fuel + 1, k =>
      let c := candName name k
      if c ∈ fs then findFree fs name fuel (k + 1) else some c

/-- Errors `get_note_path` can raise. -/
inductive NotePathErr where
  | valueErrorEmptyName
  | fuelExhausted
  deriving DecidableEq, Repr

deriving instance DecidableEq for Except

/-- `get_note_path(sort_field_text, deck_dir)` (lines 1181-1204).  The deck
directory is modelled by the list `fs` of names extant in it.

* line 1189: `field_text = plain_to_html(field_text)`;
* line 1190: strip HTML tags;
* line 1191: truncate to 30 characters;
* line 1192: `slugify(name, allow_unicode=True)`;
* line 1193: `name.with_suffix(".md")` - when the slug is empty this is
  `Path("").with_suffix(...)`, which raises `ValueError` (empty name); when
  the slug is nonempty it appends `.md` (the slug never contains a dot, see
  `slug_no_dot`, so no suffix is replaced);
* lines 1194-1202: try `name.md`, `name_1.md`, ... and touch the first
  candidate that does not exist (`fuelExhausted` is unreachable: the source
  loop runs until a free candidate is found, and one always exists). -/
def getNotePath (U : PyExt) (fs : List String) (sortFieldText : String) :
    Except NotePathErr String :=
  let fieldText := U.plainToHtml sortFieldText
  let fieldText := stripHtmlTags fieldText
  let name := slugify U (pyTake30 fieldText) true
  if name = "" then .error .valueErrorEmptyName
  else
    match findFree fs name (fs.length + 1) 0 with
    | some p => .ok p
    | none => .error .fuelExhausted

/-- Hangul algorithmic canonical composition, the fragment of Unicode NFKC
exercised by the concrete strings below: a leading consonant jamo (U+1100 to
U+1112) followed by a vowel jamo (U+1161 to U+1175) composes to a precomposed
syllable in U+AC00 to U+D7A3, and a following trailing consonant jamo
(U+11A8 to U+11C2) joins it.  All other characters pass through unchanged. -/
def isHangulL (c : Char) : Bool := decide (0x1100 ≤ c.toNat ∧ c.toNat ≤ 0x1112)

/-- A Hangul vowel jamo. -/
def isHangulV (c : Char) : Bool := decide (0x1161 ≤ c.toNat ∧ c.toNat ≤ 0x1175)

/-- A Hangul trailing consonant jamo. -/
def isHangulT (c : Char) : Bool := decide (0x11A8 ≤ c.toNat ∧ c.toNat ≤ 0x11C2)

/-- The precomposed LV syllable for a leading and a vowel jamo. -/
def hangulLV (l v : Char) : Char :=
  Char.ofNat (0xAC00 + ((l.toNat - 0x1100) * 21 + (v.toNat - 0x1161)) * 28)

/-- Compose Hangul jamo sequences with explicit fuel (structural recursion
so that witnesses evaluate in the kernel); each step consumes at least one
character, so fuel `l.length` in `hangulCompose` suffices. -/
def hangulComposeAux : Nat → List Char → List Char
  | 0, l => l
  | fuel + 1, l =>
      match l with
      | [] => []
      | c1 :: rest =>
          match rest with
          | [] => [c1]
          | c2 :: rest2 =>
              if isHangulL c1 && isHangulV c2 then
                match rest2 with
                | t :: rest3 =>
                    if isHangulT t then
                      Char.ofNat ((hangulLV c1 c2).toNat +
                        (t.toNat - 0x11A7)) :: hangulComposeAux fuel rest3
                    else hangulLV c1 c2 :: hangulComposeAux fuel rest2
                | [] => [hangulLV c1 c2]
              else c1 :: hangulComposeAux fuel rest

/-- Compose Hangul jamo sequences; identity elsewhere. -/
def hangulCompose (l : List Char) : List Char :=
  hangulComposeAux l.length l

/-- Concrete `PyExt` instance agreeing with the real Python environment on
strings whose characters are ASCII: NFKC and NFKD are the identity on ASCII,
`str.lower()` acts as `pyLowerChar`, `\w` and `\s` are the ASCII classes, and
`plain_to_html` is the identity on text free of HTML entities, newlines, and
edge whitespace (it only rewrites entities, empty tag pairs, and newlines,
then strips). -/
def uAscii : PyExt :=
  ⟨id, id, asciiLower, asciiWordChar, asciiSpaceChar, id⟩

/-- Concrete `PyExt` instance agreeing with the real Python environment on
strings of ASCII characters and Hangul jamo/syllables: NFKC performs the
algorithmic jamo composition (on which it acts exactly as `hangulCompose`;
the jamo strings used below contain no other composable material), NFKD
decomposes nothing we use, `str.lower()` fixes jamo (they are caseless), and
jamo and precomposed syllables are letters, hence `\w` word characters. -/
def uHangul : PyExt :=
  ⟨fun s => String.mk (hangulCompose s.data),
   id,
   asciiLower,
   fun c => asciiWordChar c ||
     decide ((0x1100 ≤ c.toNat ∧ c.toNat ≤ 0x11FF) ∨
       (0xAC00 ≤ c.toNat ∧ c.toNat ≤ 0xD7A3)),
   asciiSpaceChar,
   id⟩

/-- The statement of C5's filename formula, from the claim's words: the slug
"strips HTML tags, Unicode-normalizes, lowercases, collapses runs of
characters that are not alphanumerics, dashes, or underscores into single
dashes, and trims leading/trailing dashes and underscores", the filename is
that slug truncated to 30 characters with `.md` appended. -/
def claimSlug (U : PyExt) (s : String) : String :=
  let v := U.lower (U.nfkc (stripHtmlTags s))
  let v := collapseCore (fun c => ¬(U.wordChar c || c = '-')) v.data
  String.mk (pyStrip dashUnderscore v)

/-- The filename C5 claims, for a collision-free directory. -/
def claimFilename (U : PyExt) (s : String) : String :=
  pyTake30 (claimSlug U s) ++ ".md"

/-- Classification of one character by the amended slug description: word
characters are kept, whitespace and dashes mark a dash, everything else is
deleted. -/
def amendClassify (U : PyExt) (c : Char) : Option Char :=
  if U.wordChar c then some c
  else if U.spaceChar c || c = '-' then some '-'
  else none

/-- The amended slug, written from the amended claim's words: Unicode
normalize (NFKC), lowercase, delete characters that are neither word
characters nor whitespace nor dashes, turn each whitespace-or-dash run into
a single dash, and trim leading/trailing dashes and underscores. -/
def amendedSlug (U : PyExt) (s : String) : String :=
  let v := U.lower (U.nfkc s)
  let v := collapseCore (fun c => c = '-') (v.data.filterMap (amendClassify U))
  String.mk (pyStrip dashUnderscore v)

/-- The base name the amended C5 claim derives for a note: amended slug of
the tag-stripped, 30-char-truncated, plain-to-html-normalized sort field. -/
def amendedBase (U : PyExt) (t : String) : String :=
  amendedSlug U (pyTake30 (stripHtmlTags (U.plainToHtml t)))

/-- No two adjacent dashes, scanning with a flag recording whether the
previous character was a dash (used for the slug idempotence argument). -/
def noDashRunFrom (prevDash : Bool) : List Char → Bool
  | [] => true
  | c :: rest =>
      if c = '-' then !prevDash && noDashRunFrom true rest
      else noDashRunFrom false rest

/-- A character list with no run of two or more dashes. -/
def noDashRun (l : List Char) : Bool :=
  noDashRunFrom false l

/-- The ASCII action of `slugify`'s post-normalization stages (lines
1461-1462): lowercase, delete characters outside `[\w\s-]`, collapse `[-\s]`
runs to single dashes, strip `-`/`_` from both ends - with the character
classes specialized to their ASCII restrictions.  `slugify` coincides with
this on ASCII data for any faithful environment (`slugify_postAscii`). -/
def asciiSlugCore (l : List Char) : List Char :=
  pyStrip dashUnderscore
    (collapseCore (dashSpace uAscii)
      (List.filter (keepClass uAscii) (l.map pyLowerChar)))

/-- Decimal value of a digit character. -/
def dval (c : Char) : Nat :=
  c.toNat - 48

/-- Value of a big-endian decimal digit string. -/
def digitsVal (l : List Char) : Nat :=
  l.foldl (fun a c => 10 * a + dval c) 0

/-- The Hangul leading consonant jamo U+1100 (for the slug idempotence
counterexample). -/
def jamoL : Char := Char.ofNat 0x1100

/-- The Hangul vowel jamo U+1161. -/
def jamoV : Char := Char.ofNat 0x1161

/-- The precomposed Hangul syllable U+AC00, the NFKC composition of
`jamoL` followed by `jamoV`. -/
def syllGA : Char := Char.ofNat 0xAC00

/-- The sort-field string U+1100, '!', U+1161: two jamo separated by a
punctuation character that the slug deletes. -/
def hangulProbe : String := String.mk [jamoL, '!', jamoV]

/-- Faithfulness of a `PyExt` instance to the real Python environment on
ASCII data: NFKC and NFKD fix ASCII strings, `str.lower()` acts as ASCII
lowercasing on ASCII strings, and the `\w` / `\s` classes restrict to the
ASCII classes on ASCII characters.  Each field states a fact true of the
real CPython functions. -/
structure PyExt.AsciiFaithful (U : PyExt) : Prop where
  nfkc_ascii : ∀ t, asciiOnly t = true → U.nfkc t = t
  nfkd_ascii : ∀ t, asciiOnly t = true → U.nfkd t = t
  lower_ascii : ∀ t, asciiOnly t = true → U.lower t = asciiLower t
  word_ascii : ∀ c : Char, c.toNat < 128 → U.wordChar c = asciiWordChar c
  space_ascii : ∀ c : Char, c.toNat < 128 → U.spaceChar c = asciiSpaceChar c

/-!  Theorems.  -/

/-- Split a boolean conjunction. -/
theorem andE {a b : Bool} (h : (a && b) = true) : a = true ∧ b = true := by
  simp only [Bool.and_eq_true] at h
  exact h

/-- Assemble a boolean conjunction. -/
theorem andI {a b : Bool} (h1 : a = true) (h2 : b = true) :
    (a && b) = true := by
  simp [h1, h2]

/-- Split a boolean disjunction. -/
theorem orE {a b : Bool} (h : (a || b) = true) : a = true ∨ b = true := by
  simp only [Bool.or_eq_true] at h
  exact h

/-- Split a false boolean disjunction. -/
theorem orF {a b : Bool} (h : (a || b) = false) : a = false ∧ b = false := by
  simp only [Bool.or_eq_false_iff] at h
  exact h

/-- C7: the empty-directory constructor succeeds with an `EmptyDir` exactly
on an extant empty directory and returns wrapped typed errors for absent
paths, files, and strange paths; but for an extant non-empty directory it
returns the `ExpectedEmptyDirectoryButGotNonEmptyDirectoryError` exception
object itself, not wrapped in `Err` - contradicting the claim's "never a
bare un-wrapped value". -/
theorem M_emptydir_bare_on_nonempty :
    M_emptydir .nonemptyDir =
      .bare .expectedEmptyDirectoryButGotNonEmptyDirectory
    ∧ (∀ e : PyErr, M_emptydir .nonemptyDir ≠ .err e)
    ∧ M_emptydir .emptyDir = .ok .emptyDir
    ∧ M_emptydir .absent = .err .fileNotFound
    ∧ M_emptydir .file = .err .expectedDirectoryButGotFile
    ∧ M_emptydir .strange = .err .strangeExtantPath := by
  refine ⟨rfl, ?_, rfl, rfl, rfl, rfl⟩
  intro e h
  cases h

/-- C1: on the fully successful clone path (all four step results `Ok`, the
target an extant directory), `cleanup_after_clone` removes the target
directory - the `shutil.rmtree` at line 1660 is not gated on any failure -
and never reaches the `last_push` write, contradicting the claim that the
target is removed only on failure. -/
theorem cleanupAfterClone_removes_on_success :
    cleanupAfterClone (.ok true) (.ok ()) (.ok "deadbeef") (.ok ()) =
      ⟨true, false, .err .attributeError⟩ := by
  rfl

/-- C4: whenever the delta set is empty, `process_deltas` echoes
"ki push: up to date.", returns `Ok` and leaves the collection untouched,
but does not release the database lock: `unlock` is never called on this
path (the connection is not even a parameter of `process_deltas`),
contradicting the claim's "releases the database lock before exiting". -/
theorem processDeltas_empty_no_unlock (rest : PushFx) :
    processDeltas [] rest =
      ⟨.ok true, true, false, false⟩ := by
  rfl

/-- C3: with at least one non-empty line in the hashes log, push fails with
`UpdatesRejected` exactly when the last non-empty line does not contain the
current collection MD5, and in that case the collection file is not
overwritten; dually, the pull gate reports up to date, unlocks, and returns
`Ok` exactly when the last non-empty line contains the current MD5.  The
hypothesis on `rest` records that the non-up-to-date push body never
constructs `UpdatesRejectedError` (it is built only at line 1914). -/
theorem push_pull_hash_gates (ht md5 : String) (deltas : List Delta)
    (rest : PushFx) (hne : hashesLines ht ≠ [])
    (hrest : rest.ret ≠ .err .updatesRejected) :
    ((pushRun ht md5 deltas rest).ret = .err .updatesRejected ↔
      specLastLineHasMd5 ht md5 = false)
    ∧ ((pushRun ht md5 deltas rest).ret = .err .updatesRejected →
      (pushRun ht md5 deltas rest).overwroteCollection = false)
    ∧ (pullGate ht md5 = some ⟨true, true, true⟩ ↔
      specLastLineHasMd5 ht md5 = true) := by
  obtain ⟨last, hlast⟩ : ∃ last, (hashesLines ht).getLast? = some last := by
    cases h : (hashesLines ht).getLast? with
    | none => exact absurd (List.getLast?_eq_none_iff.mp h) hne
    | some l => exact ⟨l, rfl⟩
  have hspec : specLastLineHasMd5 ht md5 = pyInStr md5 last := by
    unfold specLastLineHasMd5
    rw [hlast]
  have hnorej : (processDeltas deltas rest).ret ≠ .err .updatesRejected := by
    unfold processDeltas
    by_cases hd : (deltas.eraseDups).length = 0
    · rw [if_pos hd]
      intro h
      cases h
    · rw [if_neg hd]
      exact hrest
  cases hin : pyInStr md5 last with
  | true =>
      have hrun : pushRun ht md5 deltas rest = processDeltas deltas rest := by
        unfold pushRun pushGate
        rw [hlast]
        simp [hin]
      have hpull : pullGate ht md5 = some ⟨true, true, true⟩ := by
        unfold pullGate
        rw [hlast]
        simp [hin]
      rw [hrun, hpull, hspec, hin]
      refine ⟨⟨fun h => absurd h hnorej, fun h => by cases h⟩, ?_, ?_⟩
      · intro h
        exact absurd h hnorej
      · simp
  | false =>
      have hrun : pushRun ht md5 deltas rest =
          ⟨.err .updatesRejected, false, false, false⟩ := by
        unfold pushRun pushGate
        rw [hlast]
        simp [hin]
      have hpull : pullGate ht md5 = some ⟨false, false, false⟩ := by
        unfold pullGate
        rw [hlast]
        simp [hin]
      rw [hrun, hpull, hspec, hin]
      refine ⟨by simp, fun _ => rfl, ?_⟩
      constructor
      · intro h
        simp at h
      · intro h
        cases h

/-- Witness for C3 at a concrete state: hashes log with a single line
containing the MD5 "abc". -/
theorem push_pull_hash_gates_witness :
    ((pushRun "abc  collection.anki2\n" "abc" []
        ⟨.ok true, false, false, false⟩).ret = .err .updatesRejected ↔
      specLastLineHasMd5 "abc  collection.anki2\n" "abc" = false)
    ∧ ((pushRun "abc  collection.anki2\n" "abc" []
        ⟨.ok true, false, false, false⟩).ret = .err .updatesRejected →
      (pushRun "abc  collection.anki2\n" "abc" []
        ⟨.ok true, false, false, false⟩).overwroteCollection = false)
    ∧ (pullGate "abc  collection.anki2\n" "abc" = some ⟨true, true, true⟩ ↔
      specLastLineHasMd5 "abc  collection.anki2\n" "abc" = true) :=
  push_pull_hash_gates "abc  collection.anki2\n" "abc" []
    ⟨.ok true, false, false, false⟩ (by decide) (by decide)

/-- C2: on a `Renamed` diff entry whose two sides both exist and parse, the
diff engine emits zero deltas when the nids are equal (the source has no
statement appending a `Renamed` delta), and exactly the pair
`Deleted(old), Added(new)` when they differ.  The claim's equal-nid case
("exactly one Renamed delta") does not hold on the code. -/
theorem diffRepos_rename_eval :
    diffRepos envEqNid idxOneRename = []
    ∧ diffRepos envNeNid idxOneRename =
      [⟨.deleted, .a, "a.md"⟩, ⟨.added, .b, "b.md"⟩] := by
  constructor <;> rfl

/-- The loop body emits nothing for change types other than `DELETED` and
`RENAMED` (there is no `deltas.append` statement reachable for them). -/
theorem processEntry_other (env : DiffEnv) (e : DiffEntry)
    (ct : GitChangeType) (hd : ct ≠ .deleted) (hr : ct ≠ .renamed) :
    processEntry env ct e = [] := by
  unfold processEntry
  by_cases h1 : (env.ignoreA e.aPath && env.ignoreA e.bPath) = true
  · rw [if_neg (by simp [h1]), if_neg hd]
    by_cases h2 : env.bIsFile e.bPath = true
    · rw [if_neg (by simp [h2]), if_neg hr]
    · rw [if_pos (by simp [h2])]
  · rw [if_pos (by simp [h1])]

/-- For a `DELETED` entry the loop body emits nothing or the single
`Deleted(a_path)` delta. -/
theorem processEntry_deleted_shape (env : DiffEnv) (e : DiffEntry) :
    processEntry env .deleted e = [] ∨
      processEntry env .deleted e = [⟨.deleted, .a, e.aPath⟩] := by
  unfold processEntry
  by_cases h1 : (env.ignoreA e.aPath && env.ignoreA e.bPath) = true
  · rw [if_neg (by simp [h1]), if_pos rfl]
    by_cases h2 : env.aIsFile e.aPath = true
    · right
      rw [if_pos h2]
    · left
      rw [if_neg h2]
  · left
    rw [if_pos (by simp [h1])]

/-- For a `RENAMED` entry the loop body emits nothing or the pair
`Deleted(a_path), Added(b_path)`. -/
theorem processEntry_renamed_shape (env : DiffEnv) (e : DiffEntry) :
    processEntry env .renamed e = [] ∨
      processEntry env .renamed e =
        [⟨.deleted, .a, e.aPath⟩, ⟨.added, .b, e.bPath⟩] := by
  unfold processEntry
  by_cases h1 : (env.ignoreA e.aPath && env.ignoreA e.bPath) = true
  · rw [if_neg (by simp [h1]), if_neg (by decide)]
    by_cases h2 : env.bIsFile e.bPath = true
    · rw [if_neg (by simp [h2]), if_pos rfl]
      by_cases h3 : env.nidA e.aPath ≠ env.nidB e.bPath
      · right
        rw [if_pos h3]
      · left
        rw [if_neg h3]
    · left
      rw [if_pos (by simp [h2])]
  · left
    rw [if_pos (by simp [h1])]

/-- A `flatMap` whose blocks are empty or singletons is a sublist of the
corresponding `map`. -/
theorem flatMap_sublist_map {α β : Type} (g : α → β) (f : α → List β)
    (h : ∀ a, f a = [] ∨ f a = [g a]) (l : List α) :
    List.Sublist (l.flatMap f) (l.map g) := by
  induction l with
  | nil => simp
  | cons a t ih =>
      rw [List.flatMap_cons, List.map_cons]
      rcases h a with h1 | h1
      · rw [h1, List.nil_append]
        exact List.Sublist.cons _ ih
      · rw [h1, List.singleton_append]
        exact List.Sublist.cons₂ _ ih

/-- A `flatMap` over entries that all emit nothing is empty. -/
theorem flatMap_nil_of {α β : Type} (f : α → List β) (l : List α)
    (h : ∀ a ∈ l, f a = []) : l.flatMap f = [] := by
  induction l with
  | nil => rfl
  | cons a t ih =>
      rw [List.flatMap_cons, h a (by simp), List.nil_append]
      exact ih fun x hx => h x (by simp [hx])

/-- `diff_repos` output splits into the deletion block and the rename
block: the other three change types contribute nothing. -/
theorem diffRepos_decomp (env : DiffEnv)
    (idx : GitChangeType → List DiffEntry) :
    diffRepos env idx =
      (idx .deleted).flatMap (processEntry env .deleted) ++
        (idx .renamed).flatMap (processEntry env .renamed) := by
  unfold diffRepos changeTypeOrder
  rw [List.flatMap_cons, List.flatMap_cons, List.flatMap_cons,
    List.flatMap_cons, List.flatMap_cons, List.flatMap_nil]
  rw [flatMap_nil_of _ _ fun e _ => processEntry_other env e .added
    (by decide) (by decide)]
  rw [flatMap_nil_of _ _ fun e _ => processEntry_other env e .modified
    (by decide) (by decide)]
  rw [flatMap_nil_of _ _ fun e _ => processEntry_other env e .typechanged
    (by decide) (by decide)]
  simp

/-- Keys of the rename block of one entry. -/
theorem mem_keys_renamed (env : DiffEnv) (e : DiffEntry)
    (k : GitChangeType × String)
    (hk : k ∈ (processEntry env .renamed e).map deltaKey) :
    k = (.deleted, e.aPath) ∨ k = (.added, e.bPath) := by
  rcases processEntry_renamed_shape env e with h | h <;> rw [h] at hk
  · simp at hk
  · rw [List.map_cons, List.map_cons, List.map_nil] at hk
    rcases List.mem_cons.mp hk with hk | hk
    · exact Or.inl hk
    · rcases List.mem_cons.mp hk with hk | hk
      · exact Or.inr hk
      · simp at hk

/-- Keys of the deletion block of one entry. -/
theorem mem_keys_deleted (env : DiffEnv) (e : DiffEntry)
    (k : GitChangeType × String)
    (hk : k ∈ (processEntry env .deleted e).map deltaKey) :
    k = (.deleted, e.aPath) := by
  rcases processEntry_deleted_shape env e with h | h <;> rw [h] at hk
  · simp at hk
  · rw [List.map_cons, List.map_nil] at hk
    rcases List.mem_cons.mp hk with hk | hk
    · exact hk
    · simp at hk

/-- Keys of the whole rename block are nodup when the rename sources and the
rename targets are each pairwise distinct. -/
theorem renamed_keys_nodup (env : DiffEnv) :
    ∀ Rs : List DiffEntry, (Rs.map DiffEntry.aPath).Nodup →
      (Rs.map DiffEntry.bPath).Nodup →
      ((Rs.flatMap (processEntry env .renamed)).map deltaKey).Nodup := by
  intro Rs
  induction Rs with
  | nil => simp
  | cons r t ih =>
      intro ha hb
      rw [List.map_cons] at ha hb
      obtain ⟨ha1, ha2⟩ := List.nodup_cons.mp ha
      obtain ⟨hb1, hb2⟩ := List.nodup_cons.mp hb
      rw [List.flatMap_cons, List.map_append]
      refine List.Nodup.append ?_ (ih ha2 hb2) ?_
      · rcases processEntry_renamed_shape env r with h | h <;> rw [h]
        · simp
        · simp [deltaKey]
      · intro k hk1 hk2
        obtain ⟨d, hd, hdk⟩ := List.mem_map.mp hk2
        obtain ⟨r', hr', hdr'⟩ := List.mem_flatMap.mp hd
        have hk2' : k ∈ (processEntry env .renamed r').map deltaKey :=
          List.mem_map.mpr ⟨d, hdr', hdk⟩
        rcases mem_keys_renamed env r k hk1 with h1 | h1 <;>
          rcases mem_keys_renamed env r' k hk2' with h2 | h2 <;>
            rw [h1] at h2
        · injection h2 with hs hp
          exact ha1 (hp ▸ List.mem_map.mpr ⟨r', hr', rfl⟩)
        · injection h2 with hs hp
          exact absurd hs (by decide)
        · injection h2 with hs hp
          exact absurd hs (by decide)
        · injection h2 with hs hp
          exact hb1 (hp ▸ List.mem_map.mpr ⟨r', hr', rfl⟩)

/-- C6: the delta list handed to push contains no two deltas with the same
change kind and the same target path, given the git diff-index invariants
that each baseline-tree path occurs in at most one entry as a deletion or
rename source and each HEAD-tree path in at most one entry as a rename
target.  (The source performs no explicit deduplication - `set(deltas)` at
line 1968 is used only for the emptiness test - so uniqueness is exactly
inheritance of these invariants.) -/
theorem diffRepos_keys_nodup (env : DiffEnv)
    (idx : GitChangeType → List DiffEntry)
    (hOld : (((idx .deleted).map DiffEntry.aPath) ++
      ((idx .renamed).map DiffEntry.aPath)).Nodup)
    (hNew : ((idx .renamed).map DiffEntry.bPath).Nodup) :
    ((diffRepos env idx).map deltaKey).Nodup := by
  rw [diffRepos_decomp, List.map_append]
  have hDnodup : (((idx .deleted).flatMap
      (processEntry env .deleted)).map deltaKey).Nodup := by
    have hsub : List.Sublist
        (((idx .deleted).flatMap (processEntry env .deleted)).map deltaKey)
        ((idx .deleted).map
          (fun e => ((GitChangeType.deleted, e.aPath) :
            GitChangeType × String))) := by
      rw [List.map_flatMap]
      refine flatMap_sublist_map _ _ ?_ _
      intro e
      rcases processEntry_deleted_shape env e with h | h <;> rw [h]
      · exact Or.inl rfl
      · exact Or.inr (by simp [deltaKey])
    refine List.Nodup.sublist hsub ?_
    have : (idx .deleted).map
        (fun e => ((GitChangeType.deleted, e.aPath) :
          GitChangeType × String)) =
        ((idx .deleted).map DiffEntry.aPath).map
          (fun s => (GitChangeType.deleted, s)) := by
      rw [List.map_map]
      rfl
    rw [this]
    exact (hOld.of_append_left).map fun a b h => by simpa using h
  have hRa : ((idx .renamed).map DiffEntry.aPath).Nodup :=
    hOld.of_append_right
  have hdisj := List.disjoint_of_nodup_append hOld
  refine List.Nodup.append hDnodup (renamed_keys_nodup env _ hRa hNew) ?_
  intro k hk1 hk2
  obtain ⟨d, hd, hdk⟩ := List.mem_map.mp hk1
  obtain ⟨e, he, hde⟩ := List.mem_flatMap.mp hd
  have hk1' : k = (GitChangeType.deleted, e.aPath) :=
    mem_keys_deleted env e k (List.mem_map.mpr ⟨d, hde, hdk⟩)
  obtain ⟨d', hd', hdk'⟩ := List.mem_map.mp hk2
  obtain ⟨r, hr, hdr⟩ := List.mem_flatMap.mp hd'
  rcases mem_keys_renamed env r k (List.mem_map.mpr ⟨d', hdr, hdk'⟩) with
    h2 | h2 <;> rw [hk1'] at h2
  · injection h2 with hs hp
    exact hdisj (List.mem_map.mpr ⟨e, he, rfl⟩)
      (hp ▸ List.mem_map.mpr ⟨r, hr, rfl⟩)
  · injection h2 with hs hp
    exact absurd hs (by decide)

/-- A diff index with one deletion and one rename, for the C6 witness. -/
def idxDelRen : GitChangeType → List DiffEntry :=
  fun ct =>
    if ct = .deleted then [⟨"x.md", "x.md"⟩]
    else if ct = .renamed then [⟨"a.md", "b.md"⟩] else []

/-- Witness for C6 at a concrete diff index: a deletion of `x.md` plus a
nid-changing rename `a.md -> b.md` yields three deltas with pairwise
distinct (kind, target path) keys. -/
theorem diffRepos_keys_nodup_witness :
    ((diffRepos envNeNid idxDelRen).map deltaKey).Nodup :=
  diffRepos_keys_nodup envNeNid idxDelRen (by decide) (by decide)

/-- `startsWithL` is prefix splitting. -/
theorem startsWithL_iff : ∀ p l : List Char,
    startsWithL p l = true ↔ ∃ r, l = p ++ r := by
  intro p
  induction p with
  | nil =>
      intro l
      simp [startsWithL]
  | cons c cs ih =>
      intro l
      cases l with
      | nil =>
          simp [startsWithL]
      | cons h hs =>
          rw [startsWithL]
          constructor
          · intro hb
            obtain ⟨hc, hrest⟩ := andE hb
            obtain ⟨r, hr⟩ := (ih hs).mp hrest
            exact ⟨r, by simp [hr, (by simpa using hc : c = h)]⟩
          · rintro ⟨r, hr⟩
            rw [List.cons_append] at hr
            obtain ⟨h1, h2⟩ := List.cons.inj hr
            refine andI (by simp [h1]) ((ih hs).mpr ⟨r, h2⟩)

/-- `digitsTail` recognizes a (possibly empty) run of digits closed by the
end of the string or a single final newline. -/
theorem digitsTail_iff : ∀ l : List Char,
    digitsTail l = true ↔
      ∃ ds : List Char, (∀ c ∈ ds, c.isDigit) ∧
        (l = ds ∨ l = ds ++ ['\n']) := by
  intro l
  induction l with
  | nil =>
      constructor
      · intro _
        exact ⟨[], by simp⟩
      · intro _
        rfl
  | cons c rest ih =>
      rw [digitsTail]
      by_cases hc : c = '\n'
      · subst hc
        rw [if_pos rfl]
        constructor
        · intro hb
          refine ⟨[], by simp, Or.inr ?_⟩
          simp [List.isEmpty_iff.mp hb]
        · rintro ⟨ds, hdig, hl | hl⟩
          · cases ds with
            | nil => cases hl
            | cons d ds' =>
                obtain ⟨h1, _⟩ := List.cons.inj hl
                have := hdig d (by simp)
                rw [← h1] at this
                cases this
          · cases ds with
            | nil =>
                obtain ⟨_, h2⟩ := List.cons.inj hl
                simp [h2]
            | cons d ds' =>
                obtain ⟨h1, _⟩ := List.cons.inj hl
                have := hdig d (by simp)
                rw [← h1] at this
                cases this
      · rw [if_neg hc]
        constructor
        · intro hb
          obtain ⟨hd, ht⟩ := andE hb
          obtain ⟨ds, hdig, hl⟩ := ih.mp ht
          refine ⟨c :: ds, ?_, ?_⟩
          · intro x hx
            rcases List.mem_cons.mp hx with hx | hx
            · rw [hx]; exact hd
            · exact hdig x hx
          · rcases hl with hl | hl
            · exact Or.inl (by rw [hl])
            · exact Or.inr (by rw [List.cons_append, hl])
        · rintro ⟨ds, hdig, hl | hl⟩
          · cases ds with
            | nil => cases hl
            | cons d ds' =>
                obtain ⟨h1, h2⟩ := List.cons.inj hl
                refine andI (?_) (ih.mpr ⟨ds', ?_, Or.inl h2⟩)
                · rw [h1]; exact hdig d (by simp)
                · exact fun x hx => hdig x (by simp [hx])
          · cases ds with
            | nil =>
                obtain ⟨h1, _⟩ := List.cons.inj hl
                exact absurd h1 hc
            | cons d ds' =>
                rw [List.cons_append] at hl
                obtain ⟨h1, h2⟩ := List.cons.inj hl
                refine andI (?_) (ih.mpr ⟨ds', ?_, Or.inr h2⟩)
                · rw [h1]; exact hdig d (by simp)
                · exact fun x hx => hdig x (by simp [hx])

/-- `digitsThenEnd` recognizes a nonempty digit run closed by the end of the
string or a single final newline. -/
theorem digitsThenEnd_iff (l : List Char) :
    digitsThenEnd l = true ↔
      ∃ ds : List Char, ds ≠ [] ∧ (∀ c ∈ ds, c.isDigit) ∧
        (l = ds ∨ l = ds ++ ['\n']) := by
  cases l with
  | nil =>
      rw [digitsThenEnd]
      constructor
      · intro h
        cases h
      · rintro ⟨ds, hne, _, hl | hl⟩
        · exact absurd hl.symm hne
        · cases ds with
          | nil => exact absurd rfl hne
          | cons d ds' => cases hl
  | cons c rest =>
      rw [digitsThenEnd]
      constructor
      · intro hb
        obtain ⟨hd, ht⟩ := andE hb
        obtain ⟨ds, hdig, hl⟩ := (digitsTail_iff rest).mp ht
        refine ⟨c :: ds, by simp, ?_, ?_⟩
        · intro x hx
          rcases List.mem_cons.mp hx with hx | hx
          · rw [hx]; exact hd
          · exact hdig x hx
        · rcases hl with hl | hl
          · exact Or.inl (by rw [hl])
          · exact Or.inr (by rw [List.cons_append, hl])
      · rintro ⟨ds, hne, hdig, hl | hl⟩
        · cases ds with
          | nil => exact absurd rfl hne
          | cons d ds' =>
              obtain ⟨h1, h2⟩ := List.cons.inj hl
              refine andI (?_) ((digitsTail_iff rest).mpr ⟨ds', ?_, Or.inl h2⟩)
              · rw [h1]; exact hdig d (by simp)
              · exact fun x hx => hdig x (by simp [hx])
        · cases ds with
          | nil => exact absurd rfl hne
          | cons d ds' =>
              rw [List.cons_append] at hl
              obtain ⟨h1, h2⟩ := List.cons.inj hl
              refine andI (?_) ((digitsTail_iff rest).mpr ⟨ds', ?_, Or.inr h2⟩)
              · rw [h1]; exact hdig d (by simp)
              · exact fun x hx => hdig x (by simp [hx])

/-- The regex check of line 823 meets the claim's wording. -/
theorem matchNidLine_iff (l : String) :
    matchNidLine l = true ↔ specNidLine l := by
  unfold matchNidLine specNidLine
  constructor
  · intro hb
    obtain ⟨hpre, hdig⟩ := andE hb
    obtain ⟨r, hr⟩ := (startsWithL_iff _ _).mp hpre
    have hdrop : l.data.drop 5 = r := by
      rw [hr]
      have : ("nid: ".data).length = 5 := by rfl
      rw [← this, List.drop_left]
    rw [hdrop] at hdig
    obtain ⟨ds, hne, hd, hl⟩ := (digitsThenEnd_iff r).mp hdig
    refine ⟨ds, hne, hd, ?_⟩
    rcases hl with hl | hl
    · exact Or.inl (by rw [hr, hl])
    · exact Or.inr (by rw [hr, hl, List.append_assoc])
  · rintro ⟨ds, hne, hd, hl⟩
    have hr : ∃ r, l.data = "nid: ".data ++ r ∧
        (r = ds ∨ r = ds ++ ['\n']) := by
      rcases hl with hl | hl
      · exact ⟨ds, hl, Or.inl rfl⟩
      · exact ⟨ds ++ ['\n'], by rw [hl, List.append_assoc], Or.inr rfl⟩
    obtain ⟨r, hr1, hr2⟩ := hr
    refine andI ((startsWithL_iff _ _).mpr ⟨r, hr1⟩) (?_)
    have hdrop : l.data.drop 5 = r := by
      rw [hr1]
      have : ("nid: ".data).length = 5 := by rfl
      rw [← this, List.drop_left]
    rw [hdrop]
    exact (digitsThenEnd_iff r).mpr ⟨ds, hne, hd, hr2⟩

/-- `path[-3:] == ".md"` is exactly "ends in `.md`". -/
theorem pyLastThree_iff (s : String) :
    pyLastThree s = ".md" ↔ ∃ t : List Char, s.data = t ++ ".md".data := by
  unfold pyLastThree
  constructor
  · intro h
    have hdata : s.data.drop (s.data.length - 3) = ".md".data := by
      have := congrArg String.data h
      simpa using this
    exact ⟨s.data.take (s.data.length - 3),
      by rw [← hdata, List.take_append_drop]⟩
  · rintro ⟨t, ht⟩
    have hkey : s.data.drop (s.data.length - 3) = ".md".data := by
      rw [ht]
      have h3 : (".md".data).length = 3 := rfl
      have hlen : (t ++ ".md".data).length - 3 = t.length := by
        rw [List.length_append, h3]
        omega
      rw [hlen, List.drop_left]
    rw [hkey]

/-- `is_anki_note` meets the claim's four conditions. -/
theorem isAnkiNote_iff (pathStr content : String) :
    isAnkiNote pathStr content = true ↔ specNoteFile pathStr content := by
  unfold isAnkiNote specNoteFile
  by_cases h1 : pyLastThree pathStr = ".md"
  · rw [if_neg (by simp [h1])]
    by_cases h2 : (pyReadLines content).length < 2
    · rw [if_pos h2]
      constructor
      · intro h
        cases h
      · rintro ⟨_, hlen, _, _⟩
        omega
    · rw [if_neg h2]
      by_cases h3 : (pyReadLines content).getD 0 "" = "## Note\n"
      · rw [if_neg (fun hcon => hcon h3)]
        rw [matchNidLine_iff]
        constructor
        · intro h
          exact ⟨(pyLastThree_iff pathStr).mp h1, by omega, h3, h⟩
        · rintro ⟨_, _, _, h⟩
          exact h
      · rw [if_pos h3]
        constructor
        · intro h
          cases h
        · rintro ⟨_, _, hfirst, _⟩
          exact absurd hfirst h3
  · rw [if_pos h1]
    constructor
    · intro h
      cases h
    · rintro ⟨ht, _, _, _⟩
      exact absurd ((pyLastThree_iff pathStr).mpr ht) h1

/-- C8: for an extant file that neither matches an ignore pattern by name
nor lies under an ignored directory, the ignore predicate keeps it exactly
when it satisfies the four note-file conditions (`.md` extension, at least
two lines, first line exactly "## Note", second line `nid: <digits>`); in
particular a file whose first line is any other title is dropped even if it
would parse under the full grammar. -/
theorem pathIgnoreFn_keeps_iff_note (p : MPath) (patterns : List String)
    (root : List String) (hfile : p.isFile = true)
    (hname : ∀ pat ∈ patterns, pat ≠ nameOf p)
    (hanc : ∀ pat ∈ patterns, isUnder (root ++ [pat]) p.parts = false) :
    (pathIgnoreFn p patterns root = true ↔
      specNoteFile (pathStrOf p) p.content)
    ∧ ((pyReadLines p.content).getD 0 "" ≠ "## Note\n" →
      pathIgnoreFn p patterns root = false) := by
  have hfn : pathIgnoreFn p patterns root =
      isAnkiNote (pathStrOf p) p.content := by
    unfold pathIgnoreFn
    rw [if_neg ?_, if_neg ?_]
    · by_cases hnote : isAnkiNote (pathStrOf p) p.content = true
      · rw [if_neg (by simp [hfile, hnote]), hnote]
      · rw [if_pos (by simp [hfile, hnote]), eq_comm]
        simpa using hnote
    · intro h
      obtain ⟨pat, hpat, hu⟩ := List.any_eq_true.mp h
      exact absurd hu (by simp [hanc pat hpat])
    · intro h
      obtain ⟨pat, hpat, hu⟩ := List.any_eq_true.mp h
      exact absurd (by simpa using hu) (hname pat hpat)
  constructor
  · rw [hfn]
    exact isAnkiNote_iff _ _
  · intro hfirst
    rw [hfn]
    cases hnote : isAnkiNote (pathStrOf p) p.content with
    | false => rfl
    | true =>
        obtain ⟨_, _, h3, _⟩ := (isAnkiNote_iff _ _).mp hnote
        exact absurd h3 hfirst

/-- Witness for C8: a concrete extant note file under `/tmp/a/r.md`, with
the source's `IGNORE` pattern list and an unrelated repository root. -/
theorem pathIgnoreFn_keeps_iff_note_witness :
    (pathIgnoreFn ⟨["tmp", "a", "r.md"], true, "## Note\nnid: 123\n"⟩
        [".git", ".ki", ".gitignore", ".gitmodules", "models.json"]
        ["home", "user", "repo"] = true ↔
      specNoteFile (pathStrOf ⟨["tmp", "a", "r.md"], true,
        "## Note\nnid: 123\n"⟩) "## Note\nnid: 123\n")
    ∧ ((pyReadLines "## Note\nnid: 123\n").getD 0 "" ≠ "## Note\n" →
      pathIgnoreFn ⟨["tmp", "a", "r.md"], true, "## Note\nnid: 123\n"⟩
        [".git", ".ki", ".gitignore", ".gitmodules", "models.json"]
        ["home", "user", "repo"] = false) :=
  pathIgnoreFn_keeps_iff_note _ _ _ (by decide) (by decide) (by decide)

/-- C5 counterexample: for the sort field text "a!b" in an empty deck
directory, the code writes `ab.md` (the `!` is deleted by the regex
`[^\w\s-]` removal), while the claim's slug collapses the `!` to a dash and
predicts `a-b.md`.  (`uAscii` agrees with the real environment on these
ASCII strings.) -/
theorem getNotePath_differs_from_claim :
    getNotePath uAscii [] "a!b" = .ok "ab.md"
    ∧ claimFilename uAscii "a!b" = "a-b.md"
    ∧ ("ab.md" : String) ≠ "a-b.md" := by
  refine ⟨by decide, by decide, by decide⟩

/-- C10 counterexample: `slugify` is not idempotent with
`allow_unicode=True`.  On U+1100 '!' U+1161 the first application deletes
the '!' and returns the jamo pair (NFKC runs before the deletion, when the
jamo are not adjacent); the second application NFKC-composes the now
adjacent pair into the precomposed syllable U+AC00.  (`uHangul` agrees with
the real environment on these strings: NFKC's Hangul composition is
algorithmic, jamo are caseless `\w` letters.) -/
theorem slugify_not_idempotent :
    slugify uHangul hangulProbe true = String.mk [jamoL, jamoV]
    ∧ slugify uHangul (String.mk [jamoL, jamoV]) true = String.mk [syllGA]
    ∧ slugify uHangul (slugify uHangul hangulProbe true) true ≠
      slugify uHangul hangulProbe true := by
  refine ⟨by decide, by decide, by decide⟩

/-- A digit character decodes to its digit. -/
theorem dval_digitChar (d : Nat) (h : d < 10) : dval (digitChar d) = d := by
  interval_cases d <;> decide

/-- Appending a digit multiplies the value by ten and adds the digit. -/
theorem digitsVal_append (l : List Char) (c : Char) :
    digitsVal (l ++ [c]) = 10 * digitsVal l + dval c := by
  unfold digitsVal
  rw [List.foldl_append]
  rfl

/-- With enough fuel, the digit string of `n` decodes back to `n`. -/
theorem natDigitsAux_val : ∀ fuel n, n < 10 ^ fuel →
    digitsVal (natDigitsAux fuel n) = n := by
  intro fuel
  induction fuel with
  | zero =>
      intro n h
      have : n = 0 := by simpa using Nat.lt_one_iff.mp h
      subst this
      rfl
  | succ fuel ih =>
      intro n h
      rw [natDigitsAux]
      by_cases h10 : n < 10
      · rw [if_pos h10]
        have : digitsVal [digitChar n] = dval (digitChar n) := by
          unfold digitsVal
          simp
        rw [this, dval_digitChar n h10]
      · rw [if_neg h10]
        rw [digitsVal_append, ih (n / 10) ?_, dval_digitChar (n % 10)
          (Nat.mod_lt n (by omega))]
        · omega
        · have hlt : n < 10 * 10 ^ fuel := by
            rw [Nat.pow_succ] at h
            omega
          exact Nat.div_lt_of_lt_mul hlt

/-- The digit string of `n` decodes back to `n`. -/
theorem natDigits_val (n : Nat) : digitsVal (natDigits n) = n := by
  unfold natDigits
  refine natDigitsAux_val (n + 1) n ?_
  have h1 : n < 10 ^ n := Nat.lt_pow_self (by omega) n
  have h2 : 10 ^ n ≤ 10 ^ (n + 1) := Nat.pow_le_pow_right (by omega) (by omega)
  omega

/-- Python's decimal rendering of a natural number is injective. -/
theorem natStr_inj {a b : Nat} (h : natStr a = natStr b) : a = b := by
  have hd : natDigits a = natDigits b := by
    have := congrArg String.data h
    simpa [natStr] using this
  have := congrArg digitsVal hd
  rwa [natDigits_val, natDigits_val] at this

/-- The candidate filenames of `get_note_path` are pairwise distinct. -/
theorem candName_inj (name : String) : Function.Injective (candName name) := by
  intro j k h
  have hdata := congrArg String.data h
  cases j with
  | zero =>
      cases k with
      | zero => rfl
      | succ k' =>
          exfalso
          rw [candName, candName] at hdata
          simp only [String.data_append, List.append_assoc] at hdata
          have h1 := List.append_cancel_left hdata
          simp only [List.singleton_append] at h1
          obtain ⟨hc, -⟩ := List.cons.inj h1
          exact absurd hc (by decide)
  | succ j' =>
      cases k with
      | zero =>
          exfalso
          rw [candName, candName] at hdata
          simp only [String.data_append, List.append_assoc] at hdata
          have h1 := List.append_cancel_left hdata
          simp only [List.singleton_append] at h1
          obtain ⟨hc, -⟩ := List.cons.inj h1.symm
          exact absurd hc (by decide)
      | succ k' =>
          rw [candName, candName] at hdata
          simp only [String.data_append, List.append_assoc] at hdata
          have h1 := List.append_cancel_left hdata
          simp only [List.singleton_append] at h1
          obtain ⟨-, h2⟩ := List.cons.inj h1
          have h3 := List.append_cancel_right h2
          have h4 : natDigits (j' + 1) = natDigits (k' + 1) := by
            simpa [natStr] using h3
          have h5 := congrArg digitsVal h4
          rw [natDigits_val, natDigits_val] at h5
          omega

/-- Among the first `fs.length + 1` candidates, at least one name is free:
the candidates are pairwise distinct and there are more of them than
entries in the directory. -/
theorem freeExists (fs : List String) (name : String) :
    ∃ k, k ≤ fs.length ∧ candName name k ∉ fs := by
  by_contra hcon
  push_neg at hcon
  set l := (List.range (fs.length + 1)).map (candName name) with hl
  have hnd : l.Nodup :=
    (List.nodup_range (fs.length + 1)).map (candName_inj name)
  have hsub : ∀ x ∈ l, x ∈ fs := by
    intro x hx
    obtain ⟨k, hk, hkx⟩ := List.mem_map.mp hx
    have hk' : k ≤ fs.length := by
      have := List.mem_range.mp hk
      omega
    rw [← hkx]
    exact hcon k hk'
  have hcard : l.toFinset.card = l.length := List.toFinset_card_of_nodup hnd
  have hlen : l.length = fs.length + 1 := by
    rw [hl, List.length_map, List.length_range]
  have hss : l.toFinset ⊆ fs.toFinset := by
    intro x hx
    exact List.mem_toFinset.mpr (hsub x (List.mem_toFinset.mp hx))
  have := Finset.card_le_card hss
  have := List.toFinset_card_le fs
  omega

/-- Specification of the fuelled candidate search: when some candidate in
range is free, the search returns the first free candidate. -/
theorem findFree_spec (fs : List String) (name : String) : ∀ fuel start,
    (∃ j, j < fuel ∧ candName name (start + j) ∉ fs) →
    ∃ k, findFree fs name fuel start = some (candName name (start + k)) ∧
      candName name (start + k) ∉ fs ∧
      ∀ i, i < k → candName name (start + i) ∈ fs := by
  intro fuel
  induction fuel with
  | zero =>
      intro start h
      obtain ⟨j, hj, -⟩ := h
      omega
  | succ fuel ih =>
      intro start h
      rw [findFree]
      by_cases hmem : candName name start ∈ fs
      · rw [if_pos hmem]
        obtain ⟨j, hj, hfree⟩ := h
        have hj0 : j ≠ 0 := by
          intro h0
          rw [h0] at hfree
          exact hfree (by simpa using hmem)
        obtain ⟨k, hk1, hk2, hk3⟩ := ih (start + 1)
          ⟨j - 1, by omega, by
            have : start + 1 + (j - 1) = start + j := by omega
            rw [this]
            exact hfree⟩
        refine ⟨k + 1, ?_, ?_, ?_⟩
        · rw [show start + (k + 1) = start + 1 + k by omega]
          exact hk1
        · rw [show start + (k + 1) = start + 1 + k by omega]
          exact hk2
        · intro i hi
          cases i with
          | zero => simpa using hmem
          | succ i' =>
              rw [show start + (i' + 1) = start + 1 + i' by omega]
              exact hk3 i' (by omega)
      · rw [if_neg hmem]
        exact ⟨0, by simp, by simpa using hmem, by omega⟩

/-- Helper: whenever the slug of the sort field text is nonempty,
`get_note_path` returns the first free candidate among `name.md`,
`name_1.md`, `name_2.md`, ..., which is absent from the deck directory. -/
theorem getNotePath_firstFree (U : PyExt) (fs : List String) (t : String)
    (hne : slugify U (pyTake30 (stripHtmlTags (U.plainToHtml t))) true ≠ "") :
    ∃ p k, getNotePath U fs t = .ok p ∧ p ∉ fs ∧
      p = candName (slugify U (pyTake30 (stripHtmlTags (U.plainToHtml t)))
        true) k ∧
      ∀ i, i < k → candName (slugify U (pyTake30 (stripHtmlTags
        (U.plainToHtml t))) true) i ∈ fs := by
  set name := slugify U (pyTake30 (stripHtmlTags (U.plainToHtml t))) true
    with hname
  obtain ⟨k0, hk0, hfree⟩ := freeExists fs name
  obtain ⟨k, hk1, hk2, hk3⟩ := findFree_spec fs name (fs.length + 1) 0
    ⟨k0, by omega, by simpa using hfree⟩
  refine ⟨candName name k, k, ?_, by simpa using hk2, by simp, ?_⟩
  · show (if name = "" then
        (Except.error NotePathErr.valueErrorEmptyName : Except NotePathErr
          String)
      else
        match findFree fs name (fs.length + 1) 0 with
        | some p => Except.ok p
        | none => Except.error NotePathErr.fuelExhausted) =
      Except.ok (candName name k)
    rw [if_neg hne, hk1]
    simp
  · intro i hi
    simpa using hk3 i hi

/-- C9 (amended): whenever the slug of the sort field text is nonempty,
`get_note_path` returns the first free candidate among `name.md`,
`name_1.md`, `name_2.md`, ..., and that path did not exist in the deck
directory before the call; writing to it therefore never overwrites an
existing file.  (When the slug is empty the source raises `ValueError`
instead - see the counterexample.) -/
theorem getNotePath_fresh (U : PyExt) (fs : List String) (t : String)
    (hne : slugify U (pyTake30 (stripHtmlTags (U.plainToHtml t))) true ≠ "") :
    ∃ p k, getNotePath U fs t = .ok p ∧ p ∉ fs ∧
      p = candName (slugify U (pyTake30 (stripHtmlTags (U.plainToHtml t)))
        true) k ∧
      ∀ i, i < k → candName (slugify U (pyTake30 (stripHtmlTags
        (U.plainToHtml t))) true) i ∈ fs :=
  getNotePath_firstFree U fs t hne

/-- Witness for C9 at a concrete input: deck directory already containing
`r.md`, sort field "r"; the returned path is the free candidate `r_1.md`. -/
theorem getNotePath_fresh_witness :
    ∃ p k, getNotePath uAscii ["r.md"] "r" = .ok p ∧ p ∉ ["r.md"] ∧
      p = candName (slugify uAscii (pyTake30 (stripHtmlTags
        (uAscii.plainToHtml "r"))) true) k ∧
      ∀ i, i < k → candName (slugify uAscii (pyTake30 (stripHtmlTags
        (uAscii.plainToHtml "r"))) true) i ∈ ["r.md"] :=
  getNotePath_fresh uAscii ["r.md"] "r" (by decide)

/-- C9 counterexample: for the sort field text "!!!" (whose slug is empty)
the source raises `ValueError` inside `Path("").with_suffix(".md")` instead
of returning a fresh path, so the claim's "for every sort field text ...
returns a path" fails as stated. -/
theorem getNotePath_empty_slug_raises :
    getNotePath uAscii [] "!!!" = .error .valueErrorEmptyName := by
  decide

/-- `Char.ofNat` round-trips on the lowercase ASCII letters. -/
theorem charOfNat_toNat_lower (n : Nat) (h1 : 97 ≤ n) (h2 : n ≤ 122) :
    (Char.ofNat n).toNat = n := by
  interval_cases n <;> decide

/-- ASCII lowercasing is idempotent characterwise. -/
theorem pyLowerChar_fix (c : Char) :
    pyLowerChar (pyLowerChar c) = pyLowerChar c := by
  unfold pyLowerChar
  by_cases h : 65 ≤ c.toNat ∧ c.toNat ≤ 90
  · rw [if_pos h]
    rw [if_neg ?_]
    have := charOfNat_toNat_lower (c.toNat + 32) (by omega) (by omega)
    rw [this]
    omega
  · rw [if_neg h, if_neg h]

/-- ASCII lowercasing keeps characters in the ASCII range. -/
theorem pyLowerChar_ascii (c : Char) (h : c.toNat < 128) :
    (pyLowerChar c).toNat < 128 := by
  unfold pyLowerChar
  by_cases hc : 65 ≤ c.toNat ∧ c.toNat ≤ 90
  · rw [if_pos hc]
    have := charOfNat_toNat_lower (c.toNat + 32) (by omega) (by omega)
    omega
  · rw [if_neg hc]
    exact h

/-- An ASCII word character is neither whitespace nor a dash. -/
theorem asciiWord_props (c : Char) (h : asciiWordChar c = true) :
    asciiSpaceChar c = false ∧ ¬(c = '-') := by
  rw [asciiWordChar, decide_eq_true_eq] at h
  constructor
  · rw [asciiSpaceChar, decide_eq_false_iff_not]
    omega
  · intro hc
    subst hc
    revert h
    decide

/-- Characters of `dropLead` output come from the input. -/
theorem mem_dropLead (p : Char → Bool) : ∀ l c, c ∈ dropLead p l → c ∈ l := by
  intro l
  induction l with
  | nil => intro c h; exact h
  | cons a rest ih =>
      intro c h
      rw [dropLead] at h
      by_cases ha : p a = true
      · rw [if_pos ha] at h
        exact List.mem_cons.mpr (Or.inr (ih c h))
      · rw [if_neg ha] at h
        exact h

/-- Characters of `dropTrail` output come from the input. -/
theorem mem_dropTrail (p : Char → Bool) : ∀ l c, c ∈ dropTrail p l → c ∈ l := by
  intro l
  induction l with
  | nil => intro c h; exact h
  | cons a rest ih =>
      intro c h
      rw [dropTrail] at h
      by_cases hc : ((dropTrail p rest).isEmpty && p a) = true
      · rw [if_pos hc] at h
        cases h
      · rw [if_neg hc] at h
        rcases List.mem_cons.mp h with h | h
        · exact List.mem_cons.mpr (Or.inl h)
        · exact List.mem_cons.mpr (Or.inr (ih c h))

/-- Characters of the collapse output are dashes or non-run input
characters (joint statement for the two scanning states). -/
theorem mem_collapse (ds : Char → Bool) : ∀ l c,
    (c ∈ collapseCore ds l → c = '-' ∨ (c ∈ l ∧ ds c = false)) ∧
    (c ∈ collapseSkip ds l → c = '-' ∨ (c ∈ l ∧ ds c = false)) := by
  intro l
  induction l with
  | nil =>
      intro c
      constructor
      · intro h
        rw [collapseCore] at h
        cases h
      · intro h
        rw [collapseSkip] at h
        cases h
  | cons a rest ih =>
      intro c
      constructor
      · intro h
        rw [collapseCore] at h
        by_cases ha : ds a = true
        · rw [if_pos ha] at h
          rcases List.mem_cons.mp h with h | h
          · exact Or.inl h
          · rcases (ih c).2 h with h | ⟨h1, h2⟩
            · exact Or.inl h
            · exact Or.inr ⟨List.mem_cons.mpr (Or.inr h1), h2⟩
        · rw [if_neg ha] at h
          rcases List.mem_cons.mp h with h | h
          · refine Or.inr ⟨List.mem_cons.mpr (Or.inl h), ?_⟩
            rw [h]
            simpa using ha
          · rcases (ih c).1 h with h | ⟨h1, h2⟩
            · exact Or.inl h
            · exact Or.inr ⟨List.mem_cons.mpr (Or.inr h1), h2⟩
      · intro h
        rw [collapseSkip] at h
        by_cases ha : ds a = true
        · rw [if_pos ha] at h
          rcases (ih c).2 h with h | ⟨h1, h2⟩
          · exact Or.inl h
          · exact Or.inr ⟨List.mem_cons.mpr (Or.inr h1), h2⟩
        · rw [if_neg ha] at h
          rcases List.mem_cons.mp h with h | h
          · refine Or.inr ⟨List.mem_cons.mpr (Or.inl h), ?_⟩
            rw [h]
            simpa using ha
          · rcases (ih c).1 h with h | ⟨h1, h2⟩
            · exact Or.inl h
            · exact Or.inr ⟨List.mem_cons.mpr (Or.inr h1), h2⟩

/-- The dash-run flag can always be weakened to `false`. -/
theorem ndr_mono : ∀ l b, noDashRunFrom b l = true →
    noDashRunFrom false l = true := by
  intro l
  induction l with
  | nil => intro b _; rfl
  | cons c rest _ =>
      intro b h
      rw [noDashRunFrom] at h ⊢
      by_cases hc : c = '-'
      · rw [if_pos hc] at h ⊢
        obtain ⟨-, h2⟩ := andE h
        exact andI rfl h2
      · rw [if_neg hc] at h ⊢
        exact h

/-- Dropping the head preserves the no-dash-run property. -/
theorem ndr_tail (c : Char) (l : List Char)
    (h : noDashRunFrom false (c :: l) = true) :
    noDashRunFrom false l = true := by
  rw [noDashRunFrom] at h
  by_cases hc : c = '-'
  · rw [if_pos hc] at h
    obtain ⟨-, h2⟩ := andE h
    exact ndr_mono l true h2
  · rw [if_neg hc] at h
    exact h

/-- A prefix of a no-dash-run list is a no-dash-run list. -/
theorem ndr_append_left : ∀ (l1 : List Char) (b : Bool) (l2 : List Char),
    noDashRunFrom b (l1 ++ l2) = true → noDashRunFrom b l1 = true := by
  intro l1
  induction l1 with
  | nil => intro b l2 _; rfl
  | cons c rest ih =>
      intro b l2 h
      rw [List.cons_append, noDashRunFrom] at h
      rw [noDashRunFrom]
      by_cases hc : c = '-'
      · rw [if_pos hc] at h ⊢
        obtain ⟨h1, h2⟩ := andE h
        exact andI h1 (ih true l2 h2)
      · rw [if_neg hc] at h ⊢
        exact ih false l2 h

/-- The collapse output has no run of two dashes (joint statement; the skip
state emits no leading dash, so any incoming flag is permitted there). -/
theorem ndr_collapse (ds : Char → Bool) (hds : ds '-' = true) : ∀ l,
    noDashRunFrom false (collapseCore ds l) = true ∧
    (∀ b, noDashRunFrom b (collapseSkip ds l) = true) := by
  intro l
  induction l with
  | nil => exact ⟨rfl, fun _ => rfl⟩
  | cons c rest ih =>
      constructor
      · rw [collapseCore]
        by_cases hc : ds c = true
        · rw [if_pos hc, noDashRunFrom, if_pos rfl]
          exact andI rfl (ih.2 true)
        · rw [if_neg hc, noDashRunFrom, if_neg ?_]
          · exact ih.1
          · intro hdash
            rw [hdash] at hc
            exact hc hds
      · intro b
        rw [collapseSkip]
        by_cases hc : ds c = true
        · rw [if_pos hc]
          exact ih.2 b
        · rw [if_neg hc, noDashRunFrom, if_neg ?_]
          · exact ih.1
          · intro hdash
            rw [hdash] at hc
            exact hc hds

/-- Leading strip ends at a non-stripped head (or empties the list). -/
theorem dropLead_head (p : Char → Bool) : ∀ l,
    dropLead p l = [] ∨
      ∃ c rest, dropLead p l = c :: rest ∧ p c = false := by
  intro l
  induction l with
  | nil => exact Or.inl rfl
  | cons a rest ih =>
      rw [dropLead]
      by_cases ha : p a = true
      · rw [if_pos ha]
        exact ih
      · rw [if_neg ha]
        exact Or.inr ⟨a, rest, rfl, by simpa using ha⟩

/-- Leading strip moves along the list: the output is reached by removing
leading characters. -/
theorem ndr_dropLead (p : Char → Bool) : ∀ l,
    noDashRunFrom false l = true →
    noDashRunFrom false (dropLead p l) = true := by
  intro l
  induction l with
  | nil => intro h; exact h
  | cons a rest ih =>
      intro h
      rw [dropLead]
      by_cases ha : p a = true
      · rw [if_pos ha]
        exact ih (ndr_tail a rest h)
      · rw [if_neg ha]
        exact h

/-- Trailing strip removes a suffix. -/
theorem dropTrail_append (p : Char → Bool) : ∀ l,
    ∃ l2, l = dropTrail p l ++ l2 := by
  intro l
  induction l with
  | nil => exact ⟨[], rfl⟩
  | cons a rest ih =>
      rw [dropTrail]
      by_cases hc : ((dropTrail p rest).isEmpty && p a) = true
      · rw [if_pos hc]
        exact ⟨a :: rest, rfl⟩
      · rw [if_neg hc]
        obtain ⟨l2, hl2⟩ := ih
        exact ⟨l2, by rw [List.cons_append, ← hl2]⟩

/-- Trailing strip keeps the head (or empties the list). -/
theorem dropTrail_head (p : Char → Bool) (a : Char) (rest : List Char) :
    dropTrail p (a :: rest) = [] ∨
      ∃ r, dropTrail p (a :: rest) = a :: r := by
  rw [dropTrail]
  by_cases hc : ((dropTrail p rest).isEmpty && p a) = true
  · rw [if_pos hc]
    exact Or.inl rfl
  · rw [if_neg hc]
    exact Or.inr ⟨dropTrail p rest, rfl⟩

/-- The last character surviving the trailing strip is not stripped. -/
theorem dropTrail_last (p : Char → Bool) : ∀ l c,
    (dropTrail p l).getLast? = some c → p c = false := by
  intro l
  induction l with
  | nil =>
      intro c h
      cases h
  | cons a rest ih =>
      intro c h
      rw [dropTrail] at h
      by_cases hc : ((dropTrail p rest).isEmpty && p a) = true
      · rw [if_pos hc] at h
        cases h
      · rw [if_neg hc] at h
        cases hr : dropTrail p rest with
        | nil =>
            rw [hr] at h hc
            simp only [List.getLast?_singleton, Option.some.injEq] at h
            subst h
            simpa using hc
        | cons d r2 =>
            rw [hr] at h
            rw [List.getLast?_cons_cons] at h
            apply ih
            rw [hr]
            exact h

/-- A map that fixes every element of a list fixes the list. -/
theorem map_fix (f : Char → Char) : ∀ l : List Char,
    (∀ c ∈ l, f c = c) → l.map f = l := by
  intro l
  induction l with
  | nil => intro _; rfl
  | cons a rest ih =>
      intro h
      rw [List.map_cons, h a (by simp), ih fun c hc => h c (by simp [hc])]

/-- Collapsing fixes a list whose only run characters are isolated dashes
(joint statement; the skip state is entered only after a dash, and the
no-dash-run property then forbids a leading dash). -/
theorem collapse_fix (ds : Char → Bool) (hds : ds '-' = true) : ∀ l,
    (∀ c ∈ l, ds c = true → c = '-') →
    (noDashRunFrom false l = true → collapseCore ds l = l) ∧
    (noDashRunFrom true l = true → collapseSkip ds l = l) := by
  intro l
  induction l with
  | nil => intro _; exact ⟨fun _ => rfl, fun _ => rfl⟩
  | cons a rest ih =>
      intro honly
      have honly' : ∀ c ∈ rest, ds c = true → c = '-' :=
        fun c hc => honly c (by simp [hc])
      constructor
      · intro hndr
        rw [collapseCore]
        by_cases ha : ds a = true
        · rw [if_pos ha]
          have haDash : a = '-' := honly a (by simp) ha
          subst haDash
          rw [noDashRunFrom, if_pos rfl] at hndr
          obtain ⟨-, h2⟩ := andE hndr
          rw [(ih honly').2 h2]
        · rw [if_neg ha]
          have haNotDash : ¬(a = '-') := by
            intro hd
            rw [hd] at ha
            exact ha hds
          rw [noDashRunFrom, if_neg haNotDash] at hndr
          rw [(ih honly').1 hndr]
      · intro hndr
        rw [collapseSkip]
        by_cases haDash : a = '-'
        · rw [noDashRunFrom, if_pos haDash] at hndr
          obtain ⟨h1, -⟩ := andE hndr
          cases h1
        · have ha : ds a = false := by
            cases h : ds a with
            | false => rfl
            | true => exact absurd (honly a (by simp) h) haDash
          rw [if_neg (by simp [ha])]
          rw [noDashRunFrom, if_neg haDash] at hndr
          rw [(ih honly').1 hndr]

/-- Leading strip fixes a list whose head is not stripped. -/
theorem dropLead_fix (p : Char → Bool) : ∀ l,
    (∀ c rest, l = c :: rest → p c = false) → dropLead p l = l := by
  intro l h
  cases l with
  | nil => rfl
  | cons a rest =>
      rw [dropLead, if_neg (by simp [h a rest rfl])]

/-- Trailing strip fixes a list whose last character is not stripped. -/
theorem dropTrail_fix (p : Char → Bool) : ∀ l,
    (∀ c, l.getLast? = some c → p c = false) → dropTrail p l = l := by
  intro l
  induction l with
  | nil => intro _; rfl
  | cons a rest ih =>
      intro h
      rw [dropTrail]
      cases hr : rest with
      | nil =>
          have ha : p a = false := h a (by rw [hr]; rfl)
          simp [dropTrail, ha]
      | cons d r2 =>
          have hlast : ∀ c : Char, rest.getLast? = some c → p c = false := by
            intro c hc
            apply h
            rw [hr] at hc
            rw [hr, List.getLast?_cons_cons]
            exact hc
          have hrest := ih hlast
          rw [hr] at hrest
          rw [hrest]
          simp

/-- Characters of the ASCII slug are lowercase-fixed word characters or
dashes. -/
theorem asciiSlugCore_mem (l : List Char) (c : Char)
    (h : c ∈ asciiSlugCore l) :
    (asciiWordChar c = true ∧ pyLowerChar c = c) ∨ c = '-' := by
  unfold asciiSlugCore pyStrip at h
  have h1 := mem_dropLead dashUnderscore _ c (mem_dropTrail dashUnderscore _ c h)
  rcases (mem_collapse (dashSpace uAscii) _ c).1 h1 with h2 | ⟨h2, h3⟩
  · exact Or.inr h2
  · left
    have h4 := List.mem_filter.mp h2
    obtain ⟨d, -, hd⟩ := List.mem_map.mp h4.1
    have hkeep : (asciiWordChar c || asciiSpaceChar c ||
      decide (c = '-')) = true := h4.2
    have hds : (asciiSpaceChar c || decide (c = '-')) = false := h3
    obtain ⟨hds1, hds2⟩ := orF hds
    constructor
    · rcases orE hkeep with h5 | h5
      · rcases orE h5 with h6 | h6
        · exact h6
        · rw [hds1] at h6
          cases h6
      · rw [hds2] at h5
        cases h5
    · rw [← hd]
      exact pyLowerChar_fix d

/-- The ASCII slug has no run of two dashes. -/
theorem asciiSlugCore_ndr (l : List Char) :
    noDashRunFrom false (asciiSlugCore l) = true := by
  unfold asciiSlugCore pyStrip
  have h1 := (ndr_collapse (dashSpace uAscii) (by decide)
    (List.filter (keepClass uAscii) (l.map pyLowerChar))).1
  have h2 := ndr_dropLead dashUnderscore _ h1
  obtain ⟨l2, hl2⟩ := dropTrail_append dashUnderscore
    (dropLead dashUnderscore (collapseCore (dashSpace uAscii)
      (List.filter (keepClass uAscii) (l.map pyLowerChar))))
  rw [hl2] at h2
  exact ndr_append_left _ false l2 h2

/-- The ASCII slug neither starts nor ends with a dash or underscore. -/
theorem asciiSlugCore_ends (l : List Char) :
    (∀ c rest, asciiSlugCore l = c :: rest → dashUnderscore c = false) ∧
    (∀ c, (asciiSlugCore l).getLast? = some c → dashUnderscore c = false) := by
  constructor
  · intro c rest h
    unfold asciiSlugCore pyStrip at h
    rcases dropLead_head dashUnderscore (collapseCore (dashSpace uAscii)
      (List.filter (keepClass uAscii) (l.map pyLowerChar))) with h1 | h1
    · rw [h1] at h
      cases h
    · obtain ⟨d, r, hdr, hd⟩ := h1
      rw [hdr] at h
      rcases dropTrail_head dashUnderscore d r with h2 | ⟨r2, h2⟩
      · rw [h2] at h
        cases h
      · rw [h2] at h
        obtain ⟨hcd, -⟩ := List.cons.inj h
        rw [← hcd]
        exact hd
  · intro c h
    exact dropTrail_last dashUnderscore _ c h

/-- The ASCII slug of an ASCII list is ASCII. -/
theorem asciiSlugCore_ascii (l : List Char) (hl : ∀ c ∈ l, c.toNat < 128) :
    ∀ c ∈ asciiSlugCore l, c.toNat < 128 := by
  intro c h
  unfold asciiSlugCore pyStrip at h
  have h1 := mem_dropLead dashUnderscore _ c (mem_dropTrail dashUnderscore _ c h)
  rcases (mem_collapse (dashSpace uAscii) _ c).1 h1 with h2 | ⟨h2, -⟩
  · rw [h2]
    decide
  · obtain ⟨d, hd1, hd2⟩ := List.mem_map.mp (List.mem_filter.mp h2).1
    rw [← hd2]
    exact pyLowerChar_ascii d (hl d hd1)

/-- The ASCII slug stages fix their own output: the core idempotence fact
behind the amended C10. -/
theorem asciiSlugCore_idem (l : List Char) :
    asciiSlugCore (asciiSlugCore l) = asciiSlugCore l := by
  set t := asciiSlugCore l with ht
  have hmem := fun c hc => asciiSlugCore_mem l c hc
  have hlower : t.map pyLowerChar = t := by
    apply map_fix
    intro c hc
    rcases hmem c hc with ⟨-, h2⟩ | h2
    · exact h2
    · rw [h2]
      decide
  have hfilter : List.filter (keepClass uAscii) t = t := by
    rw [List.filter_eq_self]
    intro c hc
    show (asciiWordChar c || asciiSpaceChar c || decide (c = '-')) = true
    rcases hmem c hc with ⟨h1, -⟩ | h1
    · rw [h1]
      rfl
    · rw [h1]
      simp
  have hcollapse : collapseCore (dashSpace uAscii) t = t := by
    refine (collapse_fix (dashSpace uAscii) (by decide) t ?_).1
      (asciiSlugCore_ndr l)
    intro c hc hds
    have hds' : (asciiSpaceChar c || decide (c = '-')) = true := hds
    rcases hmem c hc with ⟨h1, -⟩ | h1
    · obtain ⟨hs, hd⟩ := asciiWord_props c h1
      rw [hs] at hds'
      simp only [Bool.false_or] at hds'
      exact absurd (by simpa using hds') hd
    · exact h1
  have hlead : dropLead dashUnderscore t = t := by
    apply dropLead_fix
    intro c rest h
    exact (asciiSlugCore_ends l).1 c rest (by rw [← ht]; exact h)
  have htrail : dropTrail dashUnderscore t = t := by
    apply dropTrail_fix
    intro c h
    exact (asciiSlugCore_ends l).2 c (by rw [← ht]; exact h)
  show pyStrip dashUnderscore (collapseCore (dashSpace uAscii)
    (List.filter (keepClass uAscii) (t.map pyLowerChar))) = t
  rw [hlower, hfilter, hcollapse]
  unfold pyStrip
  rw [hlead, htrail]

/-- Two strings with the same character data are equal. -/
theorem strData_inj {a b : String} (h : a.data = b.data) : a = b :=
  congrArg String.mk h

/-- Collapsing depends on the run class only through its values on the
list. -/
theorem collapse_congr (ds1 ds2 : Char → Bool) : ∀ l : List Char,
    (∀ c ∈ l, ds1 c = ds2 c) →
    collapseCore ds1 l = collapseCore ds2 l ∧
      collapseSkip ds1 l = collapseSkip ds2 l := by
  intro l
  induction l with
  | nil => intro _; exact ⟨rfl, rfl⟩
  | cons a rest ih =>
      intro h
      have ha := h a (by simp)
      have hrest := ih fun c hc => h c (by simp [hc])
      constructor
      · rw [collapseCore, collapseCore, ha]
        by_cases h2 : ds2 a = true
        · rw [if_pos h2, if_pos h2, hrest.2]
        · rw [if_neg h2, if_neg h2, hrest.1]
      · rw [collapseSkip, collapseSkip, ha]
        by_cases h2 : ds2 a = true
        · rw [if_pos h2, if_pos h2, hrest.2]
        · rw [if_neg h2, if_neg h2, hrest.1]

/-- The ASCII projection produces an ASCII string. -/
theorem asciiIgnore_ascii (w : String) : asciiOnly (asciiIgnore w) = true := by
  rw [asciiOnly, List.all_eq_true]
  intro c hc
  have hc' : c ∈ w.data.filter (fun c => c.toNat < 128) := hc
  simpa using (List.mem_filter.mp hc').2

/-- The ASCII projection fixes ASCII strings. -/
theorem asciiIgnore_of_ascii (w : String) (h : asciiOnly w = true) :
    asciiIgnore w = w := by
  apply strData_inj
  show w.data.filter (fun c => c.toNat < 128) = w.data
  rw [List.filter_eq_self]
  intro c hc
  rw [asciiOnly, List.all_eq_true] at h
  exact h c hc

/-- On ASCII input, `slugify`'s post-normalization stages for any faithful
environment coincide with their ASCII specialization. -/
theorem slugify_postAscii (U : PyExt) (hU : U.AsciiFaithful) (w : String)
    (hw : asciiOnly w = true) :
    pyStrip dashUnderscore (collapseCore (dashSpace U)
      ((U.lower w).data.filter (keepClass U))) = asciiSlugCore w.data := by
  rw [hU.lower_ascii w hw]
  have hdata : (asciiLower w).data = w.data.map pyLowerChar := rfl
  rw [hdata]
  have hasciiMap : ∀ c ∈ w.data.map pyLowerChar, c.toNat < 128 := by
    intro c hc
    obtain ⟨d, hd1, hd2⟩ := List.mem_map.mp hc
    rw [← hd2]
    refine pyLowerChar_ascii d ?_
    rw [asciiOnly, List.all_eq_true] at hw
    simpa using hw d hd1
  have hfilter : (w.data.map pyLowerChar).filter (keepClass U) =
      (w.data.map pyLowerChar).filter (keepClass uAscii) := by
    apply List.filter_congr
    intro c hc
    have hc128 := hasciiMap c hc
    show (U.wordChar c || U.spaceChar c || decide (c = '-')) =
      (asciiWordChar c || asciiSpaceChar c || decide (c = '-'))
    rw [hU.word_ascii c hc128, hU.space_ascii c hc128]
  rw [hfilter]
  have hcong := (collapse_congr (dashSpace U) (dashSpace uAscii)
    ((w.data.map pyLowerChar).filter (keepClass uAscii)) ?_).1
  · rw [hcong]
    rfl
  · intro c hc
    have hc128 : c.toNat < 128 :=
      hasciiMap c (List.mem_filter.mp hc).1
    show (U.spaceChar c || decide (c = '-')) =
      (asciiSpaceChar c || decide (c = '-'))
    rw [hU.space_ascii c hc128]

/-- Character data of `slugify` with `allow_unicode=True` on ASCII input. -/
theorem slugify_true_data (U : PyExt) (hU : U.AsciiFaithful) (v : String)
    (hv : asciiOnly v = true) :
    (slugify U v true).data = asciiSlugCore v.data := by
  have h1 : slugify U v true = String.mk (pyStrip dashUnderscore
      (collapseCore (dashSpace U)
        ((U.lower (U.nfkc v)).data.filter (keepClass U)))) := rfl
  rw [h1, hU.nfkc_ascii v hv]
  show pyStrip dashUnderscore (collapseCore (dashSpace U)
    ((U.lower v).data.filter (keepClass U))) = asciiSlugCore v.data
  exact slugify_postAscii U hU v hv

/-- Character data of `slugify` with `allow_unicode=False` on any input. -/
theorem slugify_false_data (U : PyExt) (hU : U.AsciiFaithful) (s : String) :
    (slugify U s false).data =
      asciiSlugCore (asciiIgnore (U.nfkd s)).data := by
  have h1 : slugify U s false = String.mk (pyStrip dashUnderscore
      (collapseCore (dashSpace U)
        ((U.lower (asciiIgnore (U.nfkd s))).data.filter (keepClass U)))) := rfl
  rw [h1]
  show pyStrip dashUnderscore (collapseCore (dashSpace U)
    ((U.lower (asciiIgnore (U.nfkd s))).data.filter (keepClass U))) =
    asciiSlugCore (asciiIgnore (U.nfkd s)).data
  exact slugify_postAscii U hU _ (asciiIgnore_ascii _)

/-- C10 (amended): `slugify` is idempotent with `allow_unicode=False` on
every input, and with `allow_unicode=True` on ASCII inputs, for every
environment faithful to Python's ASCII behaviour.  (With
`allow_unicode=True` on non-ASCII input idempotence fails: deleting
characters can expose new NFKC compositions - see the counterexample.) -/
theorem slugify_idem_amended (U : PyExt) (hU : U.AsciiFaithful) (s : String)
    (u : Bool) (h : u = false ∨ asciiOnly s = true) :
    slugify U (slugify U s u) u = slugify U s u := by
  cases u with
  | false =>
      have h1 := slugify_false_data U hU s
      have hinner : asciiOnly (slugify U s false) = true := by
        rw [asciiOnly, List.all_eq_true]
        intro c hc
        rw [h1] at hc
        have hmem : ∀ d ∈ (asciiIgnore (U.nfkd s)).data, d.toNat < 128 := by
          intro d hd
          have hd' : d ∈ (U.nfkd s).data.filter (fun c => c.toNat < 128) := hd
          simpa using (List.mem_filter.mp hd').2
        simpa using asciiSlugCore_ascii (asciiIgnore (U.nfkd s)).data hmem c hc
      have h2 := slugify_false_data U hU (slugify U s false)
      rw [hU.nfkd_ascii _ hinner, asciiIgnore_of_ascii _ hinner, h1,
        asciiSlugCore_idem] at h2
      exact strData_inj (by rw [h2, h1])
  | true =>
      have hs : asciiOnly s = true := by
        rcases h with h | h
        · exact absurd h (by decide)
        · exact h
      have h1 := slugify_true_data U hU s hs
      have hinner : asciiOnly (slugify U s true) = true := by
        rw [asciiOnly, List.all_eq_true]
        intro c hc
        rw [h1] at hc
        have hmem : ∀ d ∈ s.data, d.toNat < 128 := by
          intro d hd
          rw [asciiOnly, List.all_eq_true] at hs
          simpa using hs d hd
        simpa using asciiSlugCore_ascii s.data hmem c hc
      have h2 := slugify_true_data U hU (slugify U s true) hinner
      rw [h1, asciiSlugCore_idem] at h2
      exact strData_inj (by rw [h2, h1])

/-- Witness for the amended C10: the ASCII environment is faithful (every
field holds definitionally), and idempotence follows at a concrete input. -/
theorem slugify_idem_amended_witness :
    slugify uAscii (slugify uAscii "A b!" false) false =
      slugify uAscii "A b!" false :=
  slugify_idem_amended uAscii
    ⟨fun _ _ => rfl, fun _ _ => rfl, fun _ _ => rfl,
      fun _ _ => rfl, fun _ _ => rfl⟩
    "A b!" false (Or.inl rfl)

/-- `slugify`'s delete-then-collapse staging equals the amended claim's
character classification followed by dash-run collapsing, provided word
characters are neither whitespace nor dashes (true of Python's classes;
joint statement for the two scanning states). -/
theorem collapse_classify (U : PyExt)
    (hdisj : ∀ c, U.wordChar c = true →
      U.spaceChar c = false ∧ ¬(c = '-')) :
    ∀ l : List Char,
    collapseCore (dashSpace U) (l.filter (keepClass U)) =
      collapseCore (fun c => c = '-') (l.filterMap (amendClassify U)) ∧
    collapseSkip (dashSpace U) (l.filter (keepClass U)) =
      collapseSkip (fun c => c = '-') (l.filterMap (amendClassify U)) := by
  intro l
  induction l with
  | nil => exact ⟨rfl, rfl⟩
  | cons a rest ih =>
      by_cases hw : U.wordChar a = true
      · obtain ⟨hs, hd⟩ := hdisj a hw
        have hkeep : keepClass U a = true := by
          rw [keepClass, hw]
          rfl
        have hds : dashSpace U a = false := by
          rw [dashSpace, hs]
          simpa using hd
        have hcl : amendClassify U a = some a := by
          rw [amendClassify, if_pos hw]
        have hfil : (a :: rest).filter (keepClass U) =
            a :: rest.filter (keepClass U) := by
          rw [List.filter_cons, if_pos hkeep]
        have hfm : (a :: rest).filterMap (amendClassify U) =
            a :: rest.filterMap (amendClassify U) :=
          List.filterMap_cons_some hcl
        constructor
        · rw [hfil, hfm, collapseCore, collapseCore, if_neg (by simp [hds]),
            if_neg (by simpa using hd), ih.1]
        · rw [hfil, hfm, collapseSkip, collapseSkip, if_neg (by simp [hds]),
            if_neg (by simpa using hd), ih.1]
      · by_cases hds : (U.spaceChar a || decide (a = '-')) = true
        · have hkeep : keepClass U a = true := by
            rw [keepClass]
            rcases orE hds with h | h
            · rw [h]
              simp
            · rw [h]
              simp
          have hds' : dashSpace U a = true := hds
          have hcl : amendClassify U a = some '-' := by
            rw [amendClassify, if_neg (by simp [hw]), if_pos hds]
          have hfil : (a :: rest).filter (keepClass U) =
              a :: rest.filter (keepClass U) := by
            rw [List.filter_cons, if_pos hkeep]
          have hfm : (a :: rest).filterMap (amendClassify U) =
              '-' :: rest.filterMap (amendClassify U) :=
            List.filterMap_cons_some hcl
          constructor
          · rw [hfil, hfm, collapseCore, collapseCore, if_pos hds',
              if_pos (by simp), ih.2]
          · rw [hfil, hfm, collapseSkip, collapseSkip, if_pos hds',
              if_pos (by simp), ih.2]
        · have hkeep : keepClass U a = false := by
            rw [keepClass]
            simp only [Bool.or_eq_false_iff] at *
            have := orF (a := U.spaceChar a) (b := decide (a = '-'))
              (by simpa using hds)
            simp [hw, this.1, this.2]
          have hcl : amendClassify U a = none := by
            rw [amendClassify, if_neg (by simp [hw]), if_neg (by simp [hds])]
          have hfil : (a :: rest).filter (keepClass U) =
              rest.filter (keepClass U) := by
            rw [List.filter_cons, if_neg (by simp [hkeep])]
          have hfm : (a :: rest).filterMap (amendClassify U) =
              rest.filterMap (amendClassify U) :=
            List.filterMap_cons_none hcl
          constructor
          · rw [hfil, hfm, ih.1]
          · rw [hfil, hfm, ih.2]

/-- The code's slug (with `allow_unicode=True`) equals the amended claim's
slug. -/
theorem slugify_eq_amendedSlug (U : PyExt)
    (hdisj : ∀ c, U.wordChar c = true →
      U.spaceChar c = false ∧ ¬(c = '-'))
    (v : String) :
    slugify U v true = amendedSlug U v := by
  apply strData_inj
  show pyStrip dashUnderscore (collapseCore (dashSpace U)
      ((U.lower (U.nfkc v)).data.filter (keepClass U))) =
    pyStrip dashUnderscore (collapseCore (fun c => c = '-')
      ((U.lower (U.nfkc v)).data.filterMap (amendClassify U)))
  rw [(collapse_classify U hdisj _).1]

/-- C5 (amended): the generated filename is the amended slug of the
plain-to-html-normalized, tag-stripped, 30-character-truncated sort field
text - where the amended slug NFKC-normalizes, lowercases, deletes
characters that are neither word characters nor whitespace nor dashes,
collapses whitespace-and-dash runs to single dashes, and trims
leading/trailing dashes and underscores - with `.md` appended and `_1`,
`_2`, ... tried in increasing order on collision (the first free candidate
is returned and did not exist before the call).  Hypotheses: word
characters are neither whitespace nor dashes (a fact of Python's character
classes), and the slug is nonempty (otherwise the source raises
`ValueError`, see C9's counterexample). -/
theorem getNotePath_amended (U : PyExt)
    (hdisj : ∀ c, U.wordChar c = true →
      U.spaceChar c = false ∧ ¬(c = '-'))
    (fs : List String) (t : String) (hne : amendedBase U t ≠ "") :
    ∃ k, getNotePath U fs t = .ok (candName (amendedBase U t) k) ∧
      candName (amendedBase U t) k ∉ fs ∧
      ∀ i, i < k → candName (amendedBase U t) i ∈ fs := by
  have hbase : slugify U (pyTake30 (stripHtmlTags (U.plainToHtml t))) true =
      amendedBase U t :=
    slugify_eq_amendedSlug U hdisj _
  obtain ⟨p, k, h1, h2, h3, h4⟩ := getNotePath_firstFree U fs t
    (by rw [hbase]; exact hne)
  refine ⟨k, ?_, ?_, ?_⟩
  · rw [h1, h3, hbase]
  · rw [← hbase]
    rw [h3, hbase] at h2
    rw [hbase]
    exact h2
  · intro i hi
    have := h4 i hi
    rwa [hbase] at this

/-- Witness for the amended C5: sort field "a!b" in an empty deck
directory; the amended slug is "ab" and the filename `ab.md`. -/
theorem getNotePath_amended_witness :
    ∃ k, getNotePath uAscii [] "a!b" =
        .ok (candName (amendedBase uAscii "a!b") k) ∧
      candName (amendedBase uAscii "a!b") k ∉ ([] : List String) ∧
      ∀ i, i < k → candName (amendedBase uAscii "a!b") i ∈
        ([] : List String) :=
  getNotePath_amended uAscii (fun c h => asciiWord_props c h) [] "a!b"
    (by decide)

end Ki
